import Mathlib

/-!
# A verification development for the cvocgen BPE vocabulary generator

This file gives a shallow embedding of the core of the `cvocgen` C program
(`src/cvocgen.c`, `src/cvocgen.h`, `src/cvocgen_io.h`) and proves properties
of it.  The embedding follows the C source closely:

* C strings are modelled as Lean `String`s (lists of characters; the corpus
  and all vocabulary tokens are ASCII, where `Char` and byte coincide).
* The chained hash table (`HashTable` / `Ht_item`) is modelled as a list of
  buckets, each bucket being the chain of `(key, count)` items from head to
  tail.  Counts are modelled as unbounded `Int` (C `int`; no training run
  approaches overflow).  The `load_threshold` is `0.7` at every call site of
  the source (`HT_DEFAULT_LOAD_THRESHOLD`), so the resize trigger
  `(float)(count+1)/size >= 0.7` is modelled exactly by
  `7 * size <= 10 * (count+1)`.
* Fixed-size `char[256]` buffers filled with `snprintf` truncate their
  content to 255 characters; this is modelled by `take255`.
* Loops reading input character by character are modelled by structurally
  recursive functions with an explicit fuel argument; top-level entry points
  pass `length + 1` fuel, which is never exhausted because every loop
  iteration of the source consumes at least one input character.
-/

namespace Cvocgen

/-! ## Generic character / list helpers -/

/-- Split a character list at the first occurrence of `sep` (C `strchr`):
returns the part before the separator and the part after it, or `none`
when the separator does not occur. -/
def splitAtChar (sep : Char) : List Char → Option (List Char × List Char)
  | [] => none
  | c :: cs =>
    if c = sep then some ([], cs)
    else
      match splitAtChar sep cs with
      | none => none
      | some (pre, post) => some (c :: pre, post)

/-- `snprintf` into a `char[256]` buffer keeps at most 255 characters. -/
def take255 (l : List Char) : List Char := l.take 255

/-- C `isspace` for the ASCII locale. -/
def isSpaceChar (c : Char) : Bool :=
  c = ' ' || c = '\t' || c = '\n' || c = '\x0b' || c = '\x0c' || c = '\r'

/-- C `isdigit`. -/
def isDigitChar (c : Char) : Bool := '0' ≤ c && c ≤ '9'

/-- Value of a list of decimal digit characters (most significant first). -/
def digitsToNat (l : List Char) : Nat :=
  l.foldl (fun a c => a * 10 + (c.toNat - 48)) 0

/-- Decimal digits of `n`, most significant first (empty for `0`);
fuel-based recursion on `n / 10`. -/
def natToStrAux : Nat → Nat → List Char
  | 0, _ => []
  | _, 0 => []
  | fuel + 1, n => natToStrAux fuel (n / 10) ++ [Char.ofNat (48 + n % 10)]

/-- Decimal rendering of a natural number, as printed by `printf("%d")`. -/
def natToStr (n : Nat) : List Char :=
  if n = 0 then ['0'] else natToStrAux (n + 1) n

/-- Decimal rendering of an integer, as printed by `printf("%d")`. -/
def intToStr (i : Int) : List Char :=
  if i < 0 then '-' :: natToStr (-i).toNat else natToStr i.toNat

/-- `scanf`-style natural number scan: a nonempty run of digits. -/
def scan_nat (l : List Char) : Option (Nat × List Char) :=
  let ds := l.takeWhile isDigitChar
  if ds.isEmpty then none
  else some (digitsToNat ds, l.dropWhile isDigitChar)

/-- The sign-and-digits part of `fscanf("%d")`, after whitespace. -/
def scan_int_core : List Char → Option (Int × List Char)
  | [] => none
  | c :: cs =>
    if c = '-' then (scan_nat cs).map (fun p => (-(p.1 : Int), p.2))
    else if c = '+' then (scan_nat cs).map (fun p => ((p.1 : Int), p.2))
    else (scan_nat (c :: cs)).map (fun p => ((p.1 : Int), p.2))

/-- `fscanf("%d")`: skip whitespace, optional sign, then digits. -/
def scan_int (l : List Char) : Option (Int × List Char) :=
  scan_int_core (l.dropWhile isSpaceChar)

/-- `fgets(buf, n+1, f)` body: read up to `n` characters, stopping after a
newline.  Returns the line and the remaining input. -/
def fgets_aux : Nat → List Char → List Char × List Char
  | 0, l => ([], l)
  | _ + 1, [] => ([], [])
  | n + 1, c :: cs =>
    if c = '\n' then ([c], cs)
    else
      let r := fgets_aux n cs
      (c :: r.1, r.2)

/-- `fgets(line, 256, file)`: `none` at end of file, otherwise up to 255
characters through the first newline. -/
def fgets255 (l : List Char) : Option (List Char × List Char) :=
  if l.isEmpty then none else some (fgets_aux 255 l)

/-- Strip one trailing newline, as done after each `fgets` in the source. -/
def chomp (l : List Char) : List Char :=
  if l.getLast? = some '\n' then l.dropLast else l

/-! ## Hash table (`cvocgen.h` / `cvocgen.c`)

`HashTable.items` is the bucket array; each bucket is the `Ht_item` chain
from head to tail.  The C `size` field always equals the length of the
bucket array, so it is modelled as a derived function. -/

structure HashTable where
  items : List (List (String × Int))
  count : Nat
  deriving DecidableEq, Repr

/-- Number of buckets (the C `size` field). -/
def HashTable.size (ht : HashTable) : Nat := ht.items.length

/-- All `(key, count)` items of the table, in bucket-then-chain order
(the iteration order used throughout the source). -/
def HashTable.entries (ht : HashTable) : List (String × Int) := ht.items.flatten

/-- The keys present in the table, as a finite set. -/
def HashTable.keySet (ht : HashTable) : Finset String :=
  (ht.entries.map Prod.fst).toFinset

/-- The polynomial string hash `h = h*37 + byte` over an `unsigned long`,
reduced modulo the bucket count. -/
def hash (key : String) (size : Nat) : Nat :=
  (key.data.foldl (fun v c => (v * 37 + c.toNat) % 2 ^ 64) 0) % size

def HT_DEFAULT_SIZE : Nat := 10000

/-- `ht_create_with_threshold` (the threshold is 0.7 at every call site
and is folded into `hash_insert_or_increment` below). -/
def ht_create (size : Nat) : HashTable :=
  let size := if size = 0 then HT_DEFAULT_SIZE else size
  ⟨List.replicate size [], 0⟩

/-- Search one chain for the first item with the given key (`strcmp`). -/
def bucket_search (key : String) : List (String × Int) → Option Int
  | [] => none
  | e :: es => if e.1 = key then some e.2 else bucket_search key es

/-- `hash_search`: look for the key in its bucket's chain. -/
def hash_search (ht : HashTable) (key : String) : Option Int :=
  bucket_search key (ht.items.getD (hash key ht.size) [])

/-- Set the count of the first chain item with the given key. -/
def bucket_set_first (key : String) (c : Int) : List (String × Int) → List (String × Int)
  | [] => []
  | e :: es => if e.1 = key then (e.1, c) :: es else e :: bucket_set_first key c es

/-- Increment the count of the first chain item with the given key
(`item->count++` after a successful `hash_search`). -/
def bucket_increment (key : String) : List (String × Int) → List (String × Int)
  | [] => []
  | e :: es => if e.1 = key then (e.1, e.2 + 1) :: es else e :: bucket_increment key es

/-- Allocate a new item and push it at the head of the key's bucket chain
(the insertion idiom repeated throughout the source; does not touch the
stored item count). -/
def ht_raw_insert (ht : HashTable) (key : String) (c : Int) : HashTable :=
  let slot := hash key ht.size
  { ht with items := ht.items.set slot ((key, c) :: ht.items.getD slot []) }

/-- `ht_resize`: rehash every item, walking buckets in order and each chain
from head to tail, pushing each item at the head of its new bucket.
`new_size == 0` is rejected and leaves the table unchanged. -/
def ht_resize (ht : HashTable) (new_size : Nat) : HashTable :=
  if new_size = 0 then ht
  else
    let newItems :=
      ht.items.foldl
        (fun acc chain =>
          chain.foldl
            (fun acc e => acc.set (hash e.1 new_size) (e :: acc.getD (hash e.1 new_size) []))
            acc)
        (List.replicate new_size [])
    { ht with items := newItems }

/-- `hash_insert_or_increment`: resize (doubling) when the load factor
`(count+1)/size` would reach the 0.7 threshold, then increment the key's
count if present, else insert it with count 1. -/
def hash_insert_or_increment (ht0 : HashTable) (key : String) : HashTable :=
  let ht := if 7 * ht0.size ≤ 10 * (ht0.count + 1) then ht_resize ht0 (ht0.size * 2) else ht0
  match hash_search ht key with
  | some _ =>
    let slot := hash key ht.size
    { ht with items := ht.items.set slot (bucket_increment key (ht.items.getD slot [])) }
  | none =>
    let slot := hash key ht.size
    { ht with
      items := ht.items.set slot ((key, 1) :: ht.items.getD slot []),
      count := ht.count + 1 }

/-- The vocabulary update performed in the merge loop of
`train_bpe_from_file` (lines 743–756): the merged token's count is *set*
to the pair frequency when the token is already present, and the token is
inserted with that frequency otherwise. -/
def update_vocab_with_merged (vocab : HashTable) (merged : String) (pair_count : Int) :
    HashTable :=
  match hash_search vocab merged with
  | some _ =>
    let slot := hash merged vocab.size
    { vocab with
      items := vocab.items.set slot (bucket_set_first merged pair_count (vocab.items.getD slot [])) }
  | none =>
    let slot := hash merged vocab.size
    { vocab with
      items := vocab.items.set slot ((merged, pair_count) :: vocab.items.getD slot []),
      count := vocab.count + 1 }

/-! ## Segmenter (`pre_tokenize`, SELFIES pattern)

The SELFIES pattern is the POSIX extended regex `(\[[^]]+\]|\.)`.
`pre_tokenize` repeatedly calls `regexec`, which returns the leftmost
match of the pattern in the remaining input; the scan below reproduces
this: at each position try a match, otherwise skip one character.  For
this pattern the leftmost match is unique: a bracket group starting at a
`[` must close at the first following `]` (the group body excludes `]`),
and `[` and `.` cannot both match at one position. -/

/-- One leftmost-match scan step per fuel unit; every step consumes at
least one input character, so `length + 1` fuel never runs out. -/
def selfies_scan : Nat → List Char → List String
  | 0, _ => []
  | _ + 1, [] => []
  | fuel + 1, c :: cs =>
    if c = '.' then "." :: selfies_scan fuel cs
    else if c = '[' then
      match splitAtChar ']' cs with
      | some (mid, rest) =>
        if mid.isEmpty then selfies_scan fuel cs
        else String.mk ('[' :: mid ++ [']']) :: selfies_scan fuel rest
      | none => selfies_scan fuel cs
    else selfies_scan fuel cs

/-- `pre_tokenize` with the global format set to SELFIES (the default). -/
def pre_tokenize_selfies (text : String) : List String :=
  selfies_scan (text.data.length + 1) text.data

/-! ## Pair statistics, selection and merging -/

/-- The adjacent token pairs `(tokens[i], tokens[i+1])` of a sequence, in
order, exactly the pairs visited by the pair-statistics loops. -/
def adjacent_pairs : List String → List (String × String)
  | a :: b :: rest => (a, b) :: adjacent_pairs (b :: rest)
  | _ => []

/-- `snprintf(pair_key, 256, "%s %s", a, b)`: the two tokens joined by one
space, truncated to the 255 characters that fit the buffer. -/
def pair_key (a b : String) : String :=
  String.mk (take255 (a.data ++ ' ' :: b.data))

/-- `snprintf(merged, 256, "%s%s", first, second)`: concatenation truncated
to the 255 characters that fit the buffer. -/
def merged_token (first second : String) : String :=
  String.mk (take255 (first.data ++ second.data))

/-- `get_pair_stats`: `NULL` for sequences shorter than two tokens, else a
fresh table (of `HT_DEFAULT_SIZE / 10` buckets) counting each adjacent
pair key. -/
def get_pair_stats (tokens : List String) : Option HashTable :=
  if tokens.length < 2 then none
  else
    some ((adjacent_pairs tokens).foldl
      (fun ht p => hash_insert_or_increment ht (pair_key p.1 p.2))
      (ht_create (HT_DEFAULT_SIZE / 10)))

/-- The pair-statistics collection of the merge loop in
`train_bpe_from_file`: one fresh `HT_DEFAULT_SIZE` table, sequences of
fewer than two tokens skipped, every adjacent pair key counted. -/
def collect_pair_stats (corpus : List (List String)) : HashTable :=
  corpus.foldl
    (fun ht tokens =>
      if tokens.length < 2 then ht
      else (adjacent_pairs tokens).foldl
        (fun ht p => hash_insert_or_increment ht (pair_key p.1 p.2)) ht)
    (ht_create HT_DEFAULT_SIZE)

/-- The scan step of `get_best_pair`: keep the first item whose count
strictly exceeds the running maximum (initially `-1`). -/
def best_fold (acc : Option String × Int) (e : String × Int) : Option String × Int :=
  if e.2 > acc.2 then (some e.1, e.2) else acc

/-- `get_best_pair`: walk buckets in order and each chain head to tail,
returning the first pair attaining the maximal count (`NULL` when the
table has no items). -/
def get_best_pair (stats : HashTable) : Option (String × Int) :=
  let r := stats.items.foldl (fun acc chain => chain.foldl best_fold acc) (none, -1)
  match r with
  | (none, _) => none
  | (some k, c) => some (k, c)

/-- Split a pair key at its first space (`strchr(pair_copy, ' ')`). -/
def split_pair (pair : String) : Option (String × String) :=
  match splitAtChar ' ' pair.data with
  | none => none
  | some (f, s) => some (String.mk f, String.mk s)

/-- The rewriting loop of `merge_pair`: one left-to-right pass; whenever
the current token equals `first` and the next equals `second`, emit
`merged` and skip both, else copy the current token. -/
def merge_tokens (first second merged : String) : List String → List String
  | a :: b :: rest =>
    if a = first ∧ b = second then merged :: merge_tokens first second merged rest
    else a :: merge_tokens first second merged (b :: rest)
  | l => l

/-- `merge_pair`: split the pair key at its first space; without a space
the input list is returned unchanged. -/
def merge_pair (tokens : List String) (pair : String) : List String :=
  match split_pair pair with
  | none => tokens
  | some (first, second) =>
    merge_tokens first second (merged_token first second) tokens

/-! ## The merge loop of `train_bpe_from_file`

File reading, progress bars and saving are outside the loop; the loop
state is the vocabulary, the tokenized corpus (`all_tokens`) and the list
of merges performed so far. -/

structure TrainState where
  vocab : HashTable
  corpus : List (List String)
  merges : List String
  deriving DecidableEq, Repr

/-- One iteration of the merge loop.  The Boolean is `false` when the loop
`break`s (no pair found, or — after recording the merge — the selected pair
key contains no space). -/
def bpe_round (st : TrainState) : TrainState × Bool :=
  let stats := collect_pair_stats st.corpus
  match get_best_pair stats with
  | none => (st, false)
  | some (bp, cnt) =>
    let merges' := st.merges ++ [bp]
    match split_pair bp with
    | none => ({ st with merges := merges' }, false)
    | some (first, second) =>
      let merged := merged_token first second
      let vocab' := update_vocab_with_merged st.vocab merged cnt
      let corpus' := st.corpus.map (fun t => merge_tokens first second merged t)
      (⟨vocab', corpus', merges'⟩, true)

/-- The merge loop: at most `num_merges` rounds, stopping early when a
round breaks. -/
def bpe_train : TrainState → Nat → TrainState
  | st, 0 => st
  | st, n + 1 =>
    match bpe_round st with
    | (st', false) => st'
    | (st', true) => bpe_train st' n

/-! ## Text serializer (`save_vocabulary` / `load_vocabulary`)

Files are modelled as character lists. -/

/-- `save_vocabulary`: merge count, one merge per line, the
`---VOCABULARY---` marker, then one `token\tcount` line per table item in
bucket-then-chain order. -/
def save_vocabulary (vocab : HashTable) (merges : List String) : List Char :=
  intToStr merges.length ++ ['\n']
    ++ (merges.map (fun m => m.data ++ ['\n'])).flatten
    ++ "---VOCABULARY---\n".data
    ++ (vocab.entries.map (fun e => e.1.data ++ '\t' :: (intToStr e.2 ++ ['\n']))).flatten

/-- The merge-reading loop of `load_vocabulary`: `merge_count` many
`fgets` calls, each stripped of one trailing newline; `NULL` when a line
is missing. -/
def read_merges : Nat → List Char → Option (List String × List Char)
  | 0, l => some ([], l)
  | n + 1, l =>
    match fgets255 l with
    | none => none
    | some (line, rest) =>
      match read_merges n rest with
      | none => none
      | some (ms, rest') => some (String.mk (chomp line) :: ms, rest')

/-- The marker-searching loop of `load_vocabulary`: read lines until one
equals `"---VOCABULARY---\n"` or the file ends (in which case the
remaining input is empty). -/
def scan_marker : Nat → List Char → List Char
  | 0, l => l
  | fuel + 1, l =>
    match fgets255 l with
    | none => []
    | some (line, rest) =>
      if line = "---VOCABULARY---\n".data then rest else scan_marker fuel rest

/-- `fscanf("%255s", ...)`: skip whitespace, then read up to 255
non-whitespace characters; fails when none are available. -/
def scan_word255 (l : List Char) : Option (List Char × List Char) :=
  let l' := l.dropWhile isSpaceChar
  let w := (l'.takeWhile (fun c => !isSpaceChar c)).take 255
  if w.isEmpty then none else some (w, l'.drop w.length)

/-- The vocabulary insertion of `load_vocabulary` (lines 398–408): set the
count of an existing item, else push a new item (the stored item count is
not incremented there). -/
def ht_set_or_insert_nocount (ht : HashTable) (key : String) (c : Int) : HashTable :=
  match hash_search ht key with
  | some _ =>
    let slot := hash key ht.size
    { ht with items := ht.items.set slot (bucket_set_first key c (ht.items.getD slot [])) }
  | none =>
    let slot := hash key ht.size
    { ht with items := ht.items.set slot ((key, c) :: ht.items.getD slot []) }

/-- The entry-reading loop of `load_vocabulary`:
`while (fscanf(file, "%255s\t%d\n", token, &count) == 2)`. -/
def read_vocab_entries : Nat → List Char → HashTable → HashTable
  | 0, _, ht => ht
  | fuel + 1, l, ht =>
    match scan_word255 l with
    | none => ht
    | some (w, r1) =>
      match scan_int r1 with
      | none => ht
      | some (c, r2) =>
        read_vocab_entries fuel (r2.dropWhile isSpaceChar)
          (ht_set_or_insert_nocount ht (String.mk w) c)

/-- `load_vocabulary` after its `fscanf("%d\n", ...)` succeeded: read the
merge lines, scan for the marker, then read `token\tcount` entries into a
fresh 100-bucket table.  A negative merge count makes the
`malloc(sizeof(char*) * merge_count)` fail. -/
def load_vocabulary_after_header (mc : Int) (r1 : List Char) :
    Option (HashTable × List String) :=
  if mc < 0 then none
  else
    match read_merges mc.toNat (r1.dropWhile isSpaceChar) with
    | none => none
    | some (merges, r2) =>
      let r3 := scan_marker (r2.length + 1) r2
      some (read_vocab_entries (r3.length + 1) r3 (ht_create 100), merges)

/-- `load_vocabulary`: read the merge count (`fscanf("%d\n", ...)`, whose
`\n` directive also consumes following whitespace), then the rest of the
file. -/
def load_vocabulary (txt : List Char) : Option (HashTable × List String) :=
  match scan_int txt with
  | none => none
  | some (mc, r1) => load_vocabulary_after_header mc r1

/-! ## JSON serializer (`save_vocabulary_json` / `load_vocabulary_json`) -/

def SPECIAL_TOKENS : List String := ["<s>", "<pad>", "</s>", "<unk>", "<mask>"]

/-- `json_escape_string`, character by character. -/
def jsonEscapeChar (c : Char) : List Char :=
  if c = '"' then ['\\', '"']
  else if c = '\\' then ['\\', '\\']
  else if c = '/' then ['\\', '/']
  else if c = '\x08' then ['\\', 'b']
  else if c = '\x0c' then ['\\', 'f']
  else if c = '\n' then ['\\', 'n']
  else if c = '\r' then ['\\', 'r']
  else if c = '\t' then ['\\', 't']
  else [c]

def json_escape_string (s : String) : String :=
  String.mk (s.data.map jsonEscapeChar).flatten

/-- A token that needs no JSON escaping. -/
def escapeFree (s : String) : Bool :=
  s.data.all (fun c => jsonEscapeChar c = [c])

/-- One `  "key": value,` line as printed by `save_vocabulary_json`
(`key` is already escaped; the comma is printed conditionally). -/
def jsonEntryLine (key : String) (v : Int) (comma : Bool) : List Char :=
  "  \"".data ++ key.data ++ "\": ".data ++ intToStr v
    ++ (if comma then [','] else []) ++ ['\n']

/-- The non-special table items, in bucket-then-chain order (the token
list collected by `save_vocabulary_json`). -/
def non_special_entries (vocab : HashTable) : List (String × Int) :=
  vocab.entries.filter (fun e => !(SPECIAL_TOKENS.contains e.1))

/-- The five special-token lines of the vocabulary JSON file, with the
fixed indices 0–4.  The loop's comma condition
`i < special_token_count - 1 || vocab->size > 0 || merge_count > 0` is
`true` for the first four lines; only the last line's comma depends on the
bucket count and the merge count. -/
def specialsJsonLines (vocab_size merge_count : Nat) : List Char :=
  jsonEntryLine "<s>" 0 true ++ jsonEntryLine "<pad>" 1 true ++
    jsonEntryLine "</s>" 2 true ++ jsonEntryLine "<unk>" 3 true ++
    jsonEntryLine "<mask>" 4 (decide (0 < vocab_size) || decide (0 < merge_count))

/-- The non-special token lines of the vocabulary JSON file: escaped token
with its sequential index (the `index++` counter), a comma on every line
but the last (`i < token_count - 1`). -/
def vocabJsonLines (idx : Nat) : List (String × Int) → List Char
  | [] => []
  | e :: es =>
    jsonEntryLine (json_escape_string e.1) idx (!es.isEmpty) ++ vocabJsonLines (idx + 1) es

/-- The token lines of the frequency JSON file: escaped token with its
count, a comma on every line but the last. -/
def freqJsonLines : List (String × Int) → List Char
  | [] => []
  | e :: es => jsonEntryLine (json_escape_string e.1) e.2 (!es.isEmpty) ++ freqJsonLines es

/-- Content of `<base>.json`: the five special tokens at indices 0–4, then
every non-special token with its sequential index from 5. -/
def save_vocab_json_content (vocab : HashTable) (merge_count : Nat) : List Char :=
  "\x7b\n".data ++ specialsJsonLines vocab.size merge_count
    ++ vocabJsonLines 5 (non_special_entries vocab)
    ++ "\x7d\n".data

/-- Content of `<base>_freq.json`: every non-special token with its count,
in the same order; no special tokens. -/
def save_freq_json_content (vocab : HashTable) : List Char :=
  "\x7b\n".data ++ freqJsonLines (non_special_entries vocab) ++ "\x7d\n".data

/-- `while (*ptr && *ptr != ',' && *ptr != '\x7d') ptr++; if (*ptr == ',') ptr++;` -/
def skip_to_comma (l : List Char) : List Char :=
  match l.dropWhile (fun c => !(c = ',' || c = '\x7d')) with
  | [] => []
  | c :: rest => if c = ',' then rest else c :: rest

/-- `while (*ptr && *ptr != '\x7b') ptr++; if (*ptr == '\x7b') ptr++;` -/
def skip_to_lbrace (l : List Char) : List Char :=
  match l.dropWhile (fun c => !(c = '\x7b')) with
  | [] => []
  | c :: rest => if c = '\x7b' then rest else c :: rest

/-- `atoi` at a position already known to hold a digit or `'-'`. -/
def atoi_lead (l : List Char) : Int :=
  match l with
  | [] => 0
  | c :: cs =>
    if c = '-' then -(digitsToNat (cs.takeWhile isDigitChar) : Int)
    else (digitsToNat ((c :: cs).takeWhile isDigitChar) : Int)

/-- The characters `atoi`'s caller then skips: `isdigit(*ptr) || *ptr == '-' || *ptr == '.'`. -/
def isNumSkipChar (c : Char) : Bool := isDigitChar c || c = '-' || c = '.'

/-- The key/value parsing loop of `load_vocabulary_json` over the
vocabulary file: string values containing a space are collected as merges,
other string values insert their *key* with placeholder count 1, numeric
values insert the key with the number as count; every insertion pushes a
new item without searching.  One fuel unit per loop iteration; every
iteration consumes at least one character. -/
def json_parse_pairs :
    Nat → List Char → HashTable → List String → HashTable × List String
  | 0, _, vocab, merges => (vocab, merges)
  | fuel + 1, l, vocab, merges =>
    match l.dropWhile isSpaceChar with
    | [] => (vocab, merges)
    | c0 :: cs =>
      if c0 = '\x7d' then (vocab, merges)
      else if c0 = '"' then
        match splitAtChar '"' cs with
        | none => (vocab, merges)
        | some (keyChars, r1) =>
          match splitAtChar ':' r1 with
          | none => (vocab, merges)
          | some (_, r2) =>
            match r2.dropWhile isSpaceChar with
            | [] => (vocab, merges)
            | c2 :: r3' =>
              if c2 = '"' then
                match splitAtChar '"' r3' with
                | none => (vocab, merges)
                | some (valChars, r5) =>
                  if valChars.contains ' ' then
                    json_parse_pairs fuel (skip_to_comma r5) vocab
                      (merges ++ [String.mk valChars])
                  else
                    json_parse_pairs fuel (skip_to_comma r5)
                      (ht_raw_insert vocab (String.mk keyChars) 1) merges
              else if isDigitChar c2 || c2 = '-' then
                json_parse_pairs fuel (skip_to_comma ((c2 :: r3').dropWhile isNumSkipChar))
                  (ht_raw_insert vocab (String.mk keyChars) (atoi_lead (c2 :: r3'))) merges
              else
                json_parse_pairs fuel (skip_to_comma (c2 :: r3')) vocab merges
      else json_parse_pairs fuel cs vocab merges

/-- The frequency-update step of the `_freq.json` parsing loop: set the
count of the first matching item when the key is found, else do nothing. -/
def ht_update_if_found (ht : HashTable) (key : String) (c : Int) : HashTable :=
  match hash_search ht key with
  | some _ =>
    let slot := hash key ht.size
    { ht with items := ht.items.set slot (bucket_set_first key c (ht.items.getD slot [])) }
  | none => ht

/-- The key/value parsing loop of `load_vocabulary_json` over the
frequency file: numeric values update the count of an existing token;
everything else is skipped. -/
def json_parse_freq : Nat → List Char → HashTable → HashTable
  | 0, _, vocab => vocab
  | fuel + 1, l, vocab =>
    match l.dropWhile isSpaceChar with
    | [] => vocab
    | c0 :: cs =>
      if c0 = '\x7d' then vocab
      else if c0 = '"' then
        match splitAtChar '"' cs with
        | none => vocab
        | some (keyChars, r1) =>
          match splitAtChar ':' r1 with
          | none => vocab
          | some (_, r2) =>
            match r2.dropWhile isSpaceChar with
            | [] => vocab
            | c2 :: r3' =>
              if isDigitChar c2 || c2 = '-' then
                json_parse_freq fuel (skip_to_comma (c2 :: r3'))
                  (ht_update_if_found vocab (String.mk keyChars) (atoi_lead (c2 :: r3')))
              else
                json_parse_freq fuel (skip_to_comma (c2 :: r3')) vocab
      else json_parse_freq fuel cs vocab

/-- `load_vocabulary_json`: parse the vocabulary file into a fresh
100-bucket table, then — when the paired `_freq.json` exists — update
counts from it.  Returns the table and the collected merges. -/
def load_vocabulary_json (txt : List Char) (freqTxt : Option (List Char)) :
    HashTable × List String :=
  let l := skip_to_lbrace txt
  let r := json_parse_pairs (l.length + 1) l (ht_create 100) []
  match freqTxt with
  | none => r
  | some ft =>
    let lf := skip_to_lbrace ft
    (json_parse_freq (lf.length + 1) lf r.1, r.2)

/-! ## Bucket-array lemmas -/

theorem getD_set_self {α : Type} (l : List α) (i : Nat) (c d : α) (h : i < l.length) :
    (l.set i c).getD i d = c := by
  simp [List.getD_eq_getElem?_getD, List.getElem?_set_self, h]

theorem getD_eq_getElem {α : Type} (l : List α) (i : Nat) (d : α) (h : i < l.length) :
    l.getD i d = l[i] := by
  simp [List.getD_eq_getElem?_getD, List.getElem?_eq_getElem h]

theorem flatten_set {α : Type} :
    ∀ (bs : List (List α)) (i : Nat) (c : List α), i < bs.length →
    (bs.set i c).flatten = (bs.take i).flatten ++ c ++ (bs.drop (i + 1)).flatten
  | b :: bs, 0, c, _ => by simp
  | b :: bs, i + 1, c, h => by
    have ih := flatten_set bs i c (by simpa using h)
    simp only [List.set_cons_succ, List.take_succ_cons, List.drop_succ_cons,
      List.flatten_cons, ih, List.append_assoc]

theorem flatten_decomp {α : Type} :
    ∀ (bs : List (List α)) (i : Nat), i < bs.length →
    bs.flatten = (bs.take i).flatten ++ bs.getD i [] ++ (bs.drop (i + 1)).flatten
  | b :: bs, 0, _ => by simp [List.getD]
  | b :: bs, i + 1, h => by
    have ih := flatten_decomp bs i (by simpa using h)
    simp only [List.take_succ_cons, List.drop_succ_cons, List.flatten_cons,
      List.getD_cons_succ, List.append_assoc]
    conv_lhs => rw [ih]
    simp [List.append_assoc]

/-- Pushing `x` at the head of bucket `i` permutes the flattened items to
`x` followed by the previous items. -/
theorem set_prepend_flatten_perm {α : Type} (bs : List (List α)) (i : Nat) (x : α)
    (h : i < bs.length) :
    ((bs.set i (x :: bs.getD i [])).flatten).Perm (x :: bs.flatten) := by
  rw [flatten_set _ _ _ h]
  conv_rhs => rw [flatten_decomp bs i h]
  simp only [List.append_assoc]
  exact @List.perm_middle α x ((bs.take i).flatten)
    (bs.getD i [] ++ (bs.drop (i + 1)).flatten)

/-- Distributing a list of items into buckets by repeated head insertion
permutes the flattened result to the items followed by the previous
content. -/
theorem foldl_prepend_flatten_perm {α : Type} (f : α → Nat) :
    ∀ (es : List α) (bs : List (List α)), (∀ e, f e < bs.length) →
    ((es.foldl (fun acc e => acc.set (f e) (e :: acc.getD (f e) [])) bs).flatten).Perm
      (es ++ bs.flatten)
  | [], bs, _ => by simp
  | e :: es, bs, h => by
    have hlen : (bs.set (f e) (e :: bs.getD (f e) [])).length = bs.length :=
      List.length_set ..
    have ih := foldl_prepend_flatten_perm f es (bs.set (f e) (e :: bs.getD (f e) []))
      (fun e' => hlen ▸ h e')
    simp only [List.foldl_cons] at *
    refine ih.trans ?_
    refine (List.Perm.append_left es (set_prepend_flatten_perm bs (f e) e (h e))).trans ?_
    simp only [List.cons_append]
    exact List.perm_middle

/-! ## C8: resizing preserves every key/count pair -/

theorem ht_resize_entries_perm (ht : HashTable) (n : Nat) (hn : 0 < n) :
    ((ht_resize ht n).entries).Perm ht.entries := by
  unfold ht_resize
  rw [if_neg (Nat.pos_iff_ne_zero.mp hn)]
  show ((ht.items.foldl _ (List.replicate n [])).flatten).Perm ht.entries
  rw [← List.foldl_flatten]
  have h := foldl_prepend_flatten_perm (fun e : String × Int => hash e.1 n)
    ht.items.flatten (List.replicate n [])
    (fun e => by simpa using Nat.mod_lt _ hn)
  simpa [HashTable.entries] using h

/-- Claim C8: Resizing the hash table to a new capacity preserves every
key/count pair: after resize, exactly the same set of keys is present,
each with its previous count, with no lost entries and no duplicate keys.
Formally: for a positive new capacity, the items of the resized table are
a permutation of the items of the original table, and when the original
keys are duplicate-free so are the keys after the resize. -/
theorem C8_ht_resize_preserves_entries (ht : HashTable) (n : Nat) (hn : 0 < n) :
    ((ht_resize ht n).entries).Perm ht.entries ∧
      (((ht.entries.map Prod.fst).Nodup) →
        (((ht_resize ht n).entries.map Prod.fst).Nodup) ∧
        (ht_resize ht n).keySet = ht.keySet) := by
  have hperm := ht_resize_entries_perm ht n hn
  refine ⟨hperm, fun hnd => ⟨((hperm.map Prod.fst).nodup_iff).mpr hnd, ?_⟩⟩
  simp [HashTable.keySet, List.toFinset_eq_iff_perm_dedup]
  exact ((hperm.map Prod.fst).dedup)

/-- Witness for C8 at a concrete table and capacity. -/
theorem C8_witness :
    ((ht_resize ⟨[[("ab", 2), ("c", 1)]], 2⟩ 4).entries).Perm [("ab", 2), ("c", 1)] := by
  have h := (C8_ht_resize_preserves_entries ⟨[[("ab", 2), ("c", 1)]], 2⟩ 4 (by decide)).1
  exact h.trans (by decide)

/-! ## C1: the merged token's count is set, not incremented -/

theorem bucket_search_set_first (k : String) (v : Int) :
    ∀ (ch : List (String × Int)) (c : Int), bucket_search k ch = some c →
      bucket_search k (bucket_set_first k v ch) = some v
  | [], c, h => by simp [bucket_search] at h
  | e :: es, c, h => by
    by_cases he : e.1 = k
    · simp [bucket_search, bucket_set_first, he]
    · simp only [bucket_search, bucket_set_first, if_neg he] at *
      exact bucket_search_set_first k v es c h

/-- Claim C1: after a merge round selects a pair with frequency `f`, the
vocabulary entry for the concatenated token is set (overwritten) to
exactly `f`, regardless of any count that token previously held; it is
never incremented.  Formally: for any prior vocabulary with at least one
bucket, searching the merged token after the update of
`train_bpe_from_file` yields exactly the pair frequency. -/
theorem C1_merged_count_overwritten (vocab : HashTable) (merged : String)
    (pair_count : Int) (hsz : 0 < vocab.size) :
    hash_search (update_vocab_with_merged vocab merged pair_count) merged = some pair_count := by
  have hslot : hash merged vocab.size < vocab.items.length := Nat.mod_lt _ hsz
  unfold update_vocab_with_merged
  cases hs : hash_search vocab merged with
  | some c =>
    have hsz' : (vocab.items.set (hash merged vocab.size)
        (bucket_set_first merged pair_count
          (vocab.items.getD (hash merged vocab.size) []))).length = vocab.items.length :=
      List.length_set ..
    unfold hash_search HashTable.size at *
    simp only [hsz']
    rw [getD_set_self _ _ _ _ hslot]
    exact bucket_search_set_first merged pair_count _ c hs
  | none =>
    have hsz' : (vocab.items.set (hash merged vocab.size)
        ((merged, pair_count) :: vocab.items.getD (hash merged vocab.size) [])).length =
        vocab.items.length := List.length_set ..
    unfold hash_search HashTable.size at *
    simp only [hsz']
    rw [getD_set_self _ _ _ _ hslot]
    simp [bucket_search]

/-- Witness for C1: a vocabulary already holding the merged token with
count 7 ends up with exactly the pair frequency 2. -/
theorem C1_witness :
    hash_search (update_vocab_with_merged ⟨[[("[C][C]", 7)], []], 1⟩ "[C][C]" 2) "[C][C]"
      = some 2 :=
  C1_merged_count_overwritten ⟨[[("[C][C]", 7)], []], 1⟩ "[C][C]" 2 (by decide)

/-! ## Key-set lemmas for the table operations -/

theorem map_fst_bucket_set_first (k : String) (c : Int) :
    ∀ ch : List (String × Int), (bucket_set_first k c ch).map Prod.fst = ch.map Prod.fst
  | [] => rfl
  | e :: es => by
    by_cases he : e.1 = k <;>
      simp [bucket_set_first, he, map_fst_bucket_set_first k c es]

theorem map_fst_bucket_increment (k : String) :
    ∀ ch : List (String × Int), (bucket_increment k ch).map Prod.fst = ch.map Prod.fst
  | [] => rfl
  | e :: es => by
    by_cases he : e.1 = k <;>
      simp [bucket_increment, he, map_fst_bucket_increment k es]

/-- Replacing bucket `i` by a chain with the same keys leaves the key
multiset of the table unchanged. -/
theorem map_fst_flatten_set (bs : List (List (String × Int))) (i : Nat)
    (ch : List (String × Int)) (h : ch.map Prod.fst = (bs.getD i []).map Prod.fst) :
    ((bs.set i ch).flatten).map Prod.fst = (bs.flatten).map Prod.fst := by
  by_cases hi : i < bs.length
  · rw [flatten_set _ _ _ hi]
    conv_rhs => rw [flatten_decomp bs i hi]
    simp [h]
  · rw [List.set_eq_of_length_le (Nat.le_of_not_lt hi)]

/-- Pushing a new `(k, c)` item at the head of bucket `i` either inserts
`k` into the key set or (when `i` is out of range) leaves it unchanged. -/
theorem keys_toFinset_set_prepend (bs : List (List (String × Int))) (i : Nat)
    (k : String) (c : Int) :
    (((bs.set i ((k, c) :: bs.getD i [])).flatten).map Prod.fst).toFinset =
        insert k ((bs.flatten.map Prod.fst).toFinset) ∨
      (((bs.set i ((k, c) :: bs.getD i [])).flatten).map Prod.fst).toFinset =
        (bs.flatten.map Prod.fst).toFinset := by
  by_cases hi : i < bs.length
  · left
    have hperm := (set_prepend_flatten_perm bs i (k, c) hi).map Prod.fst
    have : (((bs.set i ((k, c) :: bs.getD i [])).flatten).map Prod.fst).toFinset =
        (((k, c) :: bs.flatten).map Prod.fst).toFinset := by
      rw [List.toFinset_eq_iff_perm_dedup]
      exact hperm.dedup
    simpa using this
  · right
    rw [List.set_eq_of_length_le (Nat.le_of_not_lt hi)]

theorem keySet_ht_resize (ht : HashTable) (n : Nat) :
    (ht_resize ht n).keySet = ht.keySet := by
  by_cases hn : 0 < n
  · have hperm := (ht_resize_entries_perm ht n hn).map Prod.fst
    simp only [HashTable.keySet, List.toFinset_eq_iff_perm_dedup]
    exact hperm.dedup
  · have : n = 0 := by omega
    simp [ht_resize, this]

/-- `hash_insert_or_increment` never removes a key and adds at most the
inserted key. -/
theorem keySet_insert_or_increment (ht : HashTable) (k : String) :
    ht.keySet ⊆ (hash_insert_or_increment ht k).keySet ∧
      (hash_insert_or_increment ht k).keySet ⊆ insert k ht.keySet := by
  unfold hash_insert_or_increment
  set ht1 := if 7 * ht.size ≤ 10 * (ht.count + 1) then ht_resize ht (ht.size * 2) else ht
    with hht1
  have hks1 : ht1.keySet = ht.keySet := by
    rw [hht1]
    by_cases hc : 7 * ht.size ≤ 10 * (ht.count + 1)
    · simp [hc, keySet_ht_resize]
    · simp [hc]
  cases hs : hash_search ht1 k with
  | some c =>
    simp only [hs]
    have heq : (HashTable.mk
        (ht1.items.set (hash k ht1.size)
          (bucket_increment k (ht1.items.getD (hash k ht1.size) []))) ht1.count).keySet =
        ht1.keySet := by
      simp only [HashTable.keySet, HashTable.entries]
      rw [map_fst_flatten_set _ _ _ (map_fst_bucket_increment k _)]
    rw [heq, hks1]
    exact ⟨fun a ha => ha, fun a ha => Finset.mem_insert_of_mem ha⟩
  | none =>
    simp only [hs]
    have hcase := keys_toFinset_set_prepend ht1.items (hash k ht1.size) k 1
    constructor
    · intro a ha
      rcases hcase with hcase | hcase
      · show a ∈ (HashTable.mk _ (ht1.count + 1)).keySet
        simp only [HashTable.keySet, HashTable.entries] at *
        rw [hcase]
        exact Finset.mem_insert_of_mem (hks1 ▸ ha)
      · show a ∈ (HashTable.mk _ (ht1.count + 1)).keySet
        simp only [HashTable.keySet, HashTable.entries] at *
        rw [hcase]
        exact hks1 ▸ ha
    · intro a ha
      rcases hcase with hcase | hcase
      · simp only [HashTable.keySet, HashTable.entries] at *
        rw [hcase] at ha
        rcases Finset.mem_insert.mp ha with h | h
        · exact h ▸ Finset.mem_insert_self _ _
        · exact Finset.mem_insert_of_mem (hks1 ▸ h)
      · simp only [HashTable.keySet, HashTable.entries] at *
        rw [hcase] at ha
        exact Finset.mem_insert_of_mem (hks1 ▸ ha)

/-- The merge-time vocabulary update never removes a key and adds at most
the merged token. -/
theorem keySet_update_vocab (vocab : HashTable) (m : String) (c : Int) :
    vocab.keySet ⊆ (update_vocab_with_merged vocab m c).keySet ∧
      (update_vocab_with_merged vocab m c).keySet ⊆ insert m vocab.keySet := by
  unfold update_vocab_with_merged
  cases hs : hash_search vocab m with
  | some v =>
    simp only [hs]
    have heq : (HashTable.mk
        (vocab.items.set (hash m vocab.size)
          (bucket_set_first m c (vocab.items.getD (hash m vocab.size) []))) vocab.count).keySet =
        vocab.keySet := by
      simp only [HashTable.keySet, HashTable.entries]
      rw [map_fst_flatten_set _ _ _ (map_fst_bucket_set_first m c _)]
    rw [heq]
    exact ⟨fun a ha => ha, fun a ha => Finset.mem_insert_of_mem ha⟩
  | none =>
    simp only [hs]
    have hcase := keys_toFinset_set_prepend vocab.items (hash m vocab.size) m c
    constructor
    · intro a ha
      rcases hcase with hcase | hcase <;>
        · show a ∈ (HashTable.mk _ (vocab.count + 1)).keySet
          simp only [HashTable.keySet, HashTable.entries] at *
          rw [hcase]
          first
          | exact Finset.mem_insert_of_mem ha
          | exact ha
    · intro a ha
      rcases hcase with hcase | hcase
      · simp only [HashTable.keySet, HashTable.entries] at *
        rw [hcase] at ha
        rcases Finset.mem_insert.mp ha with h | h
        · exact h ▸ Finset.mem_insert_self _ _
        · exact Finset.mem_insert_of_mem h
      · simp only [HashTable.keySet, HashTable.entries] at *
        rw [hcase] at ha
        exact Finset.mem_insert_of_mem ha

/-- One merge round never removes a vocabulary key. -/
theorem keySet_bpe_round (st : TrainState) :
    st.vocab.keySet ⊆ (bpe_round st).1.vocab.keySet := by
  cases hb : get_best_pair (collect_pair_stats st.corpus) with
  | none => simp [bpe_round, hb]
  | some p =>
    obtain ⟨bp, cnt⟩ := p
    cases hsp : split_pair bp with
    | none => simp [bpe_round, hb, hsp]
    | some q =>
      obtain ⟨f, s⟩ := q
      simpa [bpe_round, hb, hsp] using
        (keySet_update_vocab st.vocab (merged_token f s) cnt).1

/-! ## C9: the vocabulary key set grows monotonically -/

/-- Claim C9: across merge rounds the number of distinct vocabulary tokens
is monotonically non-decreasing — each round inserts at most one new token
or overwrites an existing token's count, and neither the merge-time update
nor `hash_insert_or_increment` (used for the initial frequency counting)
ever removes a token. -/
theorem C9_vocab_keys_monotone :
    (∀ (st : TrainState) (n : Nat),
        st.vocab.keySet ⊆ (bpe_train st n).vocab.keySet ∧
        st.vocab.keySet.card ≤ (bpe_train st n).vocab.keySet.card) ∧
    (∀ st : TrainState,
        st.vocab.keySet ⊆ (bpe_round st).1.vocab.keySet ∧
        ∃ m, (bpe_round st).1.vocab.keySet ⊆ insert m st.vocab.keySet) ∧
    (∀ (ht : HashTable) (k : String),
        ht.keySet ⊆ (hash_insert_or_increment ht k).keySet ∧
        (hash_insert_or_increment ht k).keySet ⊆ insert k ht.keySet) := by
  have hround : ∀ st : TrainState,
      st.vocab.keySet ⊆ (bpe_round st).1.vocab.keySet ∧
      ∃ m, (bpe_round st).1.vocab.keySet ⊆ insert m st.vocab.keySet := by
    intro st
    refine ⟨keySet_bpe_round st, ?_⟩
    cases hb : get_best_pair (collect_pair_stats st.corpus) with
    | none =>
      refine ⟨"", ?_⟩
      simp only [bpe_round, hb]
      exact fun a ha => Finset.mem_insert_of_mem ha
    | some p =>
      obtain ⟨bp, cnt⟩ := p
      cases hsp : split_pair bp with
      | none =>
        refine ⟨"", ?_⟩
        simp only [bpe_round, hb, hsp]
        exact fun a ha => Finset.mem_insert_of_mem ha
      | some q =>
        obtain ⟨f, s⟩ := q
        refine ⟨merged_token f s, ?_⟩
        simpa [bpe_round, hb, hsp] using
          (keySet_update_vocab st.vocab (merged_token f s) cnt).2
  have htrain : ∀ (n : Nat) (st : TrainState),
      st.vocab.keySet ⊆ (bpe_train st n).vocab.keySet := by
    intro n
    induction n with
    | zero => exact fun st a ha => ha
    | succ n ih =>
      intro st
      have h1 := keySet_bpe_round st
      cases hr : bpe_round st with
      | mk st' b =>
        rw [hr] at h1
        cases b with
        | false => simpa [bpe_train, hr] using h1
        | true =>
          have h2 := Finset.Subset.trans h1 (ih st')
          simpa [bpe_train, hr] using h2
  refine ⟨fun st n => ⟨htrain n st, Finset.card_le_card (htrain n st)⟩,
    hround, keySet_insert_or_increment⟩

/-! ## C6: pair exhaustion terminates training early -/

theorem collect_pair_stats_short_aux :
    ∀ (l : List (List String)) (acc : HashTable), (∀ t ∈ l, t.length ≤ 1) →
      l.foldl
        (fun ht tokens =>
          if tokens.length < 2 then ht
          else (adjacent_pairs tokens).foldl
            (fun ht p => hash_insert_or_increment ht (pair_key p.1 p.2)) ht)
        acc = acc
  | [], _, _ => rfl
  | t :: l, acc, h => by
    have ht : t.length < 2 := by
      have := h t (List.mem_cons_self t l)
      omega
    simp only [List.foldl_cons, if_pos ht]
    exact collect_pair_stats_short_aux l acc (fun t' ht' => h t' (List.mem_cons_of_mem _ ht'))

/-- A corpus of sequences shorter than two tokens yields an empty pair
statistics table. -/
theorem collect_pair_stats_short (corpus : List (List String))
    (h : ∀ t ∈ corpus, t.length ≤ 1) :
    collect_pair_stats corpus = ht_create HT_DEFAULT_SIZE :=
  collect_pair_stats_short_aux corpus _ h

theorem best_fold_nil_buckets :
    ∀ (bs : List (List (String × Int))) (acc : Option String × Int),
      (∀ c ∈ bs, c = []) →
      bs.foldl (fun acc chain => chain.foldl best_fold acc) acc = acc
  | [], _, _ => rfl
  | b :: bs, acc, h => by
    have hb : b = [] := h b (List.mem_cons_self b bs)
    simp only [List.foldl_cons, hb, List.foldl_nil]
    exact best_fold_nil_buckets bs acc (fun c hc => h c (List.mem_cons_of_mem _ hc))

/-- `get_best_pair` on a freshly created (empty) table returns `NULL`. -/
theorem get_best_pair_ht_create (n : Nat) : get_best_pair (ht_create n) = none := by
  unfold get_best_pair ht_create
  rw [best_fold_nil_buckets _ _ (fun c hc => List.eq_of_mem_replicate hc)]

theorem bpe_round_no_pair (st : TrainState)
    (h : get_best_pair (collect_pair_stats st.corpus) = none) :
    bpe_round st = (st, false) := by
  simp [bpe_round, h]

theorem bpe_train_no_pair (st : TrainState)
    (h : get_best_pair (collect_pair_stats st.corpus) = none) :
    ∀ n : Nat, bpe_train st n = st
  | 0 => rfl
  | n + 1 => by simp [bpe_train, bpe_round_no_pair st h]

/-- Claim C6: a corpus of single-token sequences only (no adjacent pair
exists) trains with zero merges and terminates early without error, for
every requested merge budget; more generally, training stops before the
budget as soon as no pair is found. -/
theorem C6_no_pair_terminates_early (corpus : List (List String))
    (h : ∀ t ∈ corpus, t.length ≤ 1) :
    (∀ (vocab : HashTable) (merges : List String) (n : Nat),
        bpe_train ⟨vocab, corpus, merges⟩ n = ⟨vocab, corpus, merges⟩) ∧
    (∀ (st : TrainState) (n : Nat),
        get_best_pair (collect_pair_stats st.corpus) = none → bpe_train st n = st) := by
  constructor
  · intro vocab merges n
    apply bpe_train_no_pair
    show get_best_pair (collect_pair_stats corpus) = none
    rw [collect_pair_stats_short corpus h]
    exact get_best_pair_ht_create _
  · exact fun st n hn => bpe_train_no_pair st hn n

/-- Witness for C6 on a concrete single-token corpus and budget 7. -/
theorem C6_witness :
    bpe_train ⟨ht_create 5, [["[C]"], ["[C]"]], []⟩ 7 = ⟨ht_create 5, [["[C]"], ["[C]"]], []⟩ :=
  (C6_no_pair_terminates_early [["[C]"], ["[C]"]] (by decide)).1 (ht_create 5) [] 7

/-! ## C7: SMILES-only input under the SELFIES pattern -/

/-- Claim C7: segmenting the SMILES-only string `CCO` under the SELFIES
pattern yields an empty token sequence — characters matching neither a
bracket group nor `.` are silently skipped and contribute no token (the
second conjunct states the skip behaviour of the scanner in general). -/
theorem C7_selfies_skips_unmatched :
    pre_tokenize_selfies "CCO" = [] ∧
    (∀ (fuel : Nat) (c : Char) (cs : List Char), c ≠ '.' → c ≠ '[' →
      selfies_scan (fuel + 1) (c :: cs) = selfies_scan fuel cs) := by
  constructor
  · decide
  · intro fuel c cs h1 h2
    simp [selfies_scan, h1, h2]

/-- Witness for C7's skip conjunct at a concrete character and input. -/
theorem C7_witness : selfies_scan 3 ['C', '.'] = selfies_scan 2 ['.'] :=
  C7_selfies_skips_unmatched.2 2 'C' ['.'] (by decide) (by decide)

/-! ## String helpers for the merge lemmas -/

theorem string_data_append (a b : String) : (a ++ b).data = a.data ++ b.data := rfl

theorem string_eq_empty_of_data_nil (s : String) (h : s.data = []) : s = "" := by
  have : String.mk s.data = String.mk [] := by rw [h]
  exact this

/-- Without buffer truncation the merged token is the plain concatenation. -/
theorem merged_token_eq_append (first second : String)
    (h : first.length + second.length ≤ 255) :
    merged_token first second = first ++ second := by
  unfold merged_token take255
  have hlen : (first.data ++ second.data).length ≤ 255 := by
    rw [List.length_append]
    exact h
  rw [List.take_of_length_le hlen]
  show String.mk (first.data ++ second.data) = first ++ second
  rw [← string_data_append]

theorem merged_token_ne_first (first second : String) (h2 : second ≠ "")
    (h : first.length + second.length ≤ 255) :
    merged_token first second ≠ first := by
  rw [merged_token_eq_append first second h]
  intro hc
  apply h2
  apply string_eq_empty_of_data_nil
  have := congrArg (fun s : String => s.data.length) hc
  simp only [string_data_append, List.length_append] at this
  exact List.eq_nil_of_length_eq_zero (by omega)

theorem merged_token_ne_second (first second : String) (h1 : first ≠ "")
    (h : first.length + second.length ≤ 255) :
    merged_token first second ≠ second := by
  rw [merged_token_eq_append first second h]
  intro hc
  apply h1
  apply string_eq_empty_of_data_nil
  have := congrArg (fun s : String => s.data.length) hc
  simp only [string_data_append, List.length_append] at this
  exact List.eq_nil_of_length_eq_zero (by omega)

/-! ## C5: the single merge pass is exhaustive (corrected) -/

theorem mem_adjacent_pairs_cons (x : String) (ys : List String) (p : String × String) :
    p ∈ adjacent_pairs (x :: ys) ↔
      (∃ y, ys.head? = some y ∧ p = (x, y)) ∨ p ∈ adjacent_pairs ys := by
  cases ys with
  | nil => simp [adjacent_pairs]
  | cons y ys' => simp [adjacent_pairs, eq_comm]

/-- The head of a merge-pass output is either the merged token or the head
of the input. -/
theorem merge_tokens_head (first second merged : String) :
    ∀ (l : List String) (x : String) (xs : List String),
      merge_tokens first second merged l = x :: xs → x = merged ∨ l.head? = some x := by
  intro l
  match l with
  | [] => intro x xs h; simp [merge_tokens] at h
  | [t] =>
    intro x xs h
    simp only [merge_tokens] at h
    injection h with h1 _
    right
    rw [← h1]
    rfl
  | a :: b :: rest =>
    intro x xs h
    simp only [merge_tokens] at h
    by_cases hm : a = first ∧ b = second
    · rw [if_pos hm] at h
      injection h with h1 _
      exact Or.inl h1.symm
    · rw [if_neg hm] at h
      injection h with h1 _
      right
      rw [← h1]
      rfl

theorem merge_tokens_no_pair_left (first second merged : String)
    (hmf : merged ≠ first) (hms : merged ≠ second) :
    ∀ (n : Nat) (l : List String), l.length ≤ n →
      (first, second) ∉ adjacent_pairs (merge_tokens first second merged l)
  | 0, l, hl => by
    have : l = [] := List.eq_nil_of_length_eq_zero (Nat.le_zero.mp hl)
    subst this
    simp [merge_tokens, adjacent_pairs]
  | n + 1, l, hl => by
    match l with
    | [] => simp [merge_tokens, adjacent_pairs]
    | [t] => simp [merge_tokens, adjacent_pairs]
    | a :: b :: rest =>
      simp only [merge_tokens]
      by_cases hm : a = first ∧ b = second
      · rw [if_pos hm]
        intro hmem
        rcases (mem_adjacent_pairs_cons _ _ _).mp hmem with ⟨y, _, hp⟩ | htail
        · exact hmf (congrArg Prod.fst hp).symm
        · have hlen : rest.length ≤ n := by
            simp only [List.length_cons] at hl
            omega
          exact merge_tokens_no_pair_left first second merged hmf hms n rest hlen htail
      · rw [if_neg hm]
        intro hmem
        rcases (mem_adjacent_pairs_cons _ _ _).mp hmem with ⟨y, hy, hp⟩ | htail
        · -- the head pair (a, y): a = first forces y = second, impossible
          have ha : first = a := congrArg Prod.fst hp
          have hsnd : second = y := congrArg Prod.snd hp
          have hbs : ¬ b = second := fun hb => hm ⟨ha.symm, hb⟩
          -- y is the head of the merged tail, so y = merged or y = b
          cases hTl : merge_tokens first second merged (b :: rest) with
          | nil => rw [hTl] at hy; simp at hy
          | cons x xs =>
            rw [hTl] at hy
            simp only [List.head?_cons, Option.some.injEq] at hy
            rcases merge_tokens_head first second merged (b :: rest) x xs hTl with hx | hx
            · exact hms (hx.symm.trans (hy.trans hsnd.symm))
            · simp only [List.head?_cons, Option.some.injEq] at hx
              exact hbs (hx.trans (hy.trans hsnd.symm))
        · have hlen : (b :: rest).length ≤ n := by
            simp only [List.length_cons] at *
            omega
          exact merge_tokens_no_pair_left first second merged hmf hms n (b :: rest) hlen htail

/-- Counterexample to claim C5 as stated: with the pair key `" B"` (empty
first component) and token sequence `["", "", "B"]`, the rewritten
sequence still contains an adjacent occurrence of the pair, so recomputed
pair statistics do not give count zero. -/
theorem C5_counterexample :
    ¬ (adjacent_pairs (merge_pair ["", "", "B"] " B")).count ("", "B") = 0 := by
  decide

/-- Claim C5, amended: for every token sequence and every pair key whose
two components (split at the first space) are nonempty and whose combined
length fits the 256-byte merge buffer, the rewritten sequence contains no
adjacent occurrence of the pair — recomputed pair statistics give count
zero for it, i.e. the single left-to-right non-overlapping pass is
exhaustive. -/
theorem C5_merge_pass_exhaustive (tokens : List String) (pair first second : String)
    (hsp : split_pair pair = some (first, second))
    (h1 : first ≠ "") (h2 : second ≠ "") (h3 : first.length + second.length ≤ 255) :
    (adjacent_pairs (merge_pair tokens pair)).count (first, second) = 0 := by
  rw [List.count_eq_zero]
  unfold merge_pair
  rw [hsp]
  exact merge_tokens_no_pair_left first second (merged_token first second)
    (merged_token_ne_first first second h2 h3)
    (merged_token_ne_second first second h1 h3)
    tokens.length tokens (Nat.le_refl _)

/-- Witness for the amended C5 at a concrete sequence and pair. -/
theorem C5_witness :
    (adjacent_pairs (merge_pair ["[C]", "[C]", "[C]", "[N]"] "[C] [C]")).count
      ("[C]", "[C]") = 0 :=
  C5_merge_pass_exhaustive ["[C]", "[C]", "[C]", "[N]"] "[C] [C]" "[C]" "[C]"
    (by decide) (by decide) (by decide) (by decide)

/-! ## C10: a merge never changes the underlying characters -/

/-- The characters of a token sequence, in order. -/
def concat_tokens (l : List String) : List Char := (l.map String.data).flatten

theorem concat_tokens_cons (x : String) (l : List String) :
    concat_tokens (x :: l) = x.data ++ concat_tokens l := rfl

theorem merge_tokens_concat (first second : String)
    (h : first.length + second.length ≤ 255) :
    ∀ (n : Nat) (l : List String), l.length ≤ n →
      concat_tokens (merge_tokens first second (merged_token first second) l) =
        concat_tokens l
  | 0, l, hl => by
    have : l = [] := List.eq_nil_of_length_eq_zero (Nat.le_zero.mp hl)
    subst this
    rfl
  | n + 1, l, hl => by
    match l with
    | [] => rfl
    | [t] => rfl
    | a :: b :: rest =>
      simp only [merge_tokens]
      by_cases hm : a = first ∧ b = second
      · rw [if_pos hm]
        have hlen : rest.length ≤ n := by
          simp only [List.length_cons] at hl
          omega
        rw [concat_tokens_cons, merge_tokens_concat first second h n rest hlen,
          merged_token_eq_append first second h, string_data_append,
          ← hm.1, ← hm.2, concat_tokens_cons, concat_tokens_cons, List.append_assoc]
      · rw [if_neg hm]
        have hlen : (b :: rest).length ≤ n := by
          simp only [List.length_cons] at *
          omega
        rw [concat_tokens_cons, merge_tokens_concat first second h n (b :: rest) hlen,
          concat_tokens_cons]
        rfl

/-- Claim C10: for every token list and every pair key containing a space,
provided the merged pair's combined length is below the 256-byte buffer
bound, `merge_pair` preserves the concatenation of the tokens — a merge
never adds, drops, or alters the underlying characters of a molecule. -/
theorem C10_merge_preserves_characters (tokens : List String) (pair first second : String)
    (hsp : split_pair pair = some (first, second))
    (hlen : first.length + second.length ≤ 255) :
    concat_tokens (merge_pair tokens pair) = concat_tokens tokens := by
  unfold merge_pair
  rw [hsp]
  exact merge_tokens_concat first second hlen tokens.length tokens (Nat.le_refl _)

/-- Witness for C10 at a concrete sequence and pair. -/
theorem C10_witness :
    concat_tokens (merge_pair ["[C]", "[C]", "[N]"] "[C] [C]") =
      concat_tokens ["[C]", "[C]", "[N]"] :=
  C10_merge_preserves_characters ["[C]", "[C]", "[N]"] "[C] [C]" "[C]" "[C]"
    (by decide) (by decide)

/-! ## Decimal printing round-trips through decimal scanning -/

theorem isDigit_digitChar (d : Nat) (h : d < 10) :
    isDigitChar (Char.ofNat (48 + d)) = true := by
  interval_cases d <;> decide

theorem toNat_digitChar (d : Nat) (h : d < 10) :
    (Char.ofNat (48 + d)).toNat = 48 + d := by
  interval_cases d <;> decide

theorem natToStrAux_digits :
    ∀ (fuel n : Nat), ∀ c ∈ natToStrAux fuel n, isDigitChar c = true
  | 0, _ => by simp [natToStrAux]
  | fuel + 1, 0 => by simp [natToStrAux]
  | fuel + 1, n + 1 => by
    intro c hc
    simp only [natToStrAux, List.mem_append, List.mem_singleton] at hc
    rcases hc with hc | hc
    · exact natToStrAux_digits fuel ((n + 1) / 10) c hc
    · rw [hc]
      exact isDigit_digitChar _ (Nat.mod_lt _ (by omega))

theorem digitsToNat_append_digit (l : List Char) (c : Char) :
    digitsToNat (l ++ [c]) = digitsToNat l * 10 + (c.toNat - 48) := by
  simp [digitsToNat, List.foldl_append]

theorem natToStrAux_val :
    ∀ (fuel n : Nat), n ≤ fuel → digitsToNat (natToStrAux fuel n) = n
  | 0, n, h => by
    have : n = 0 := Nat.le_zero.mp h
    simp [natToStrAux, this, digitsToNat]
  | fuel + 1, 0, _ => by simp [natToStrAux, digitsToNat]
  | fuel + 1, n + 1, h => by
    show digitsToNat (natToStrAux fuel ((n + 1) / 10) ++ [Char.ofNat (48 + (n + 1) % 10)]) = n + 1
    rw [digitsToNat_append_digit,
      natToStrAux_val fuel ((n + 1) / 10) (by omega),
      toNat_digitChar _ (Nat.mod_lt _ (by omega))]
    omega

theorem natToStr_digits (n : Nat) : ∀ c ∈ natToStr n, isDigitChar c = true := by
  intro c hc
  unfold natToStr at hc
  by_cases h : n = 0
  · rw [if_pos h] at hc
    simp only [List.mem_singleton] at hc
    rw [hc]
    decide
  · rw [if_neg h] at hc
    exact natToStrAux_digits _ _ c hc

theorem natToStr_val (n : Nat) : digitsToNat (natToStr n) = n := by
  unfold natToStr
  by_cases h : n = 0
  · rw [if_pos h, h]
    decide
  · rw [if_neg h]
    exact natToStrAux_val _ _ (Nat.le_succ n)

theorem natToStr_ne_nil (n : Nat) : natToStr n ≠ [] := by
  unfold natToStr
  by_cases h : n = 0
  · simp [h]
  · rw [if_neg h]
    match hm : n, h with
    | m + 1, _ => simp [natToStrAux]

theorem digit_not_space (c : Char) (h : isDigitChar c = true) : isSpaceChar c = false := by
  by_contra hs
  have hs' : isSpaceChar c = true := by
    cases hval : isSpaceChar c
    · exact absurd hval hs
    · rfl
  simp only [isSpaceChar, Bool.or_eq_true, decide_eq_true_eq] at hs'
  rcases hs' with ((((h1 | h1) | h1) | h1) | h1) | h1 <;> (subst h1; exact absurd h (by decide))

theorem takeWhile_append_stop (p : Char → Bool) :
    ∀ (l1 : List Char) (c : Char) (l2 : List Char),
      (∀ x ∈ l1, p x = true) → p c = false →
      (l1 ++ c :: l2).takeWhile p = l1 ∧ (l1 ++ c :: l2).dropWhile p = c :: l2
  | [], c, l2, _, hc => by simp [List.takeWhile_cons, List.dropWhile_cons, hc]
  | x :: l1, c, l2, h1, hc => by
    have hx : p x = true := h1 x (List.mem_cons_self x l1)
    have ih := takeWhile_append_stop p l1 c l2 (fun y hy => h1 y (List.mem_cons_of_mem _ hy)) hc
    simp only [List.cons_append, List.takeWhile_cons, List.dropWhile_cons, hx, if_pos]
    exact ⟨by rw [ih.1], by rw [ih.2]⟩

theorem dropWhile_cons_of_false (p : Char → Bool) (c : Char) (l : List Char)
    (hc : p c = false) : (c :: l).dropWhile p = c :: l := by
  simp [List.dropWhile_cons, hc]

/-- Scanning the printed digits of `n` followed by a non-digit. -/
theorem scan_nat_exact (n : Nat) (c : Char) (rest : List Char)
    (hc : isDigitChar c = false) :
    scan_nat (natToStr n ++ c :: rest) = some (n, c :: rest) := by
  obtain ⟨ht, hd⟩ := takeWhile_append_stop isDigitChar (natToStr n) c rest
    (natToStr_digits n) hc
  unfold scan_nat
  rw [ht, hd]
  have : (natToStr n).isEmpty = false := by
    cases h : natToStr n with
    | nil => exact absurd h (natToStr_ne_nil n)
    | cons a l => rfl
  rw [if_neg (by simp [this]), natToStr_val]

/-- Scanning the printed form of `i` followed by a non-digit. -/
theorem scan_int_exact (i : Int) (c : Char) (rest : List Char)
    (hc : isDigitChar c = false) :
    scan_int (intToStr i ++ c :: rest) = some (i, c :: rest) := by
  unfold intToStr
  by_cases hi : i < 0
  · rw [if_pos hi]
    unfold scan_int
    rw [List.cons_append, dropWhile_cons_of_false isSpaceChar '-' _ (by decide)]
    simp only [scan_int_core]
    rw [if_pos trivial]
    rw [scan_nat_exact _ _ _ hc]
    have hnn : ((-i).toNat : Int) = -i := Int.toNat_of_nonneg (by omega)
    simp [hnn]
  · rw [if_neg hi]
    cases hns : natToStr i.toNat with
    | nil => exact absurd hns (natToStr_ne_nil _)
    | cons d ds =>
      have hdd : isDigitChar d = true :=
        natToStr_digits i.toNat d (by rw [hns]; exact List.mem_cons_self d ds)
      unfold scan_int
      rw [List.cons_append, dropWhile_cons_of_false isSpaceChar d _ (digit_not_space d hdd)]
      simp only [scan_int_core]
      rw [if_neg (by intro h; rw [h] at hdd; exact absurd hdd (by decide))]
      rw [if_neg (by intro h; rw [h] at hdd; exact absurd hdd (by decide))]
      rw [← List.cons_append, ← hns, scan_nat_exact _ _ _ hc]
      have hnn : (i.toNat : Int) = i := Int.toNat_of_nonneg (by omega)
      simp [hnn]

/-! ## `fgets` on a well-formed line -/

theorem fgets_aux_exact :
    ∀ (m : List Char) (rest : List Char) (n : Nat), '\n' ∉ m → m.length < n →
      fgets_aux n (m ++ '\n' :: rest) = (m ++ ['\n'], rest)
  | [], rest, n, _, hn => by
    match n, hn with
    | k + 1, _ => simp [fgets_aux]
  | c :: m, rest, n, hnl, hn => by
    match n, hn with
    | k + 1, hn =>
      have hc : ¬ c = '\n' := fun h => hnl (h ▸ List.mem_cons_self c m)
      have ih := fgets_aux_exact m rest k (fun h => hnl (List.mem_cons_of_mem _ h))
        (by simp at hn; omega)
      simp [fgets_aux, hc, ih]

theorem fgets255_exact (m rest : List Char) (hnl : '\n' ∉ m) (hlen : m.length ≤ 254) :
    fgets255 (m ++ '\n' :: rest) = some (m ++ ['\n'], rest) := by
  unfold fgets255
  rw [if_neg (by cases m <;> simp)]
  rw [fgets_aux_exact m rest 255 hnl (by omega)]

theorem chomp_line (m : List Char) : chomp (m ++ ['\n']) = m := by
  unfold chomp
  rw [if_pos (by simp), List.dropLast_concat]

/-! ## The merge lines and the marker -/

/-- The merge block written by `save_vocabulary`. -/
def mergeLines (ms : List String) : List Char :=
  (ms.map (fun m => m.data ++ ['\n'])).flatten

theorem read_merges_exact :
    ∀ (ms : List String) (rest : List Char),
      (∀ m ∈ ms, '\n' ∉ m.data ∧ m.data.length ≤ 254) →
      read_merges ms.length (mergeLines ms ++ rest) = some (ms, rest)
  | [], rest, _ => rfl
  | m :: ms, rest, h => by
    have hm := h m (List.mem_cons_self m ms)
    have hassoc : mergeLines (m :: ms) ++ rest = m.data ++ '\n' :: (mergeLines ms ++ rest) := by
      simp [mergeLines]
    show read_merges (ms.length + 1) (mergeLines (m :: ms) ++ rest) = some (m :: ms, rest)
    rw [hassoc]
    simp only [read_merges, fgets255_exact m.data _ hm.1 hm.2,
      read_merges_exact ms rest (fun m' hm' => h m' (List.mem_cons_of_mem _ hm')),
      chomp_line]

set_option maxRecDepth 4096 in
theorem scan_marker_hit (fuel : Nat) (rest : List Char) (hf : 0 < fuel) :
    scan_marker fuel ("---VOCABULARY---\n".data ++ rest) = rest := by
  match fuel, hf with
  | k + 1, _ =>
    have harr : "---VOCABULARY---\n".data ++ rest = "---VOCABULARY---".data ++ '\n' :: rest := by
      rw [show "---VOCABULARY---\n".data = "---VOCABULARY---".data ++ ['\n'] from by decide,
        List.append_assoc]
      rfl
    simp only [scan_marker, harr,
      fgets255_exact "---VOCABULARY---".data rest (by decide) (by decide)]
    rw [if_pos (show "---VOCABULARY---".data ++ ['\n'] = "---VOCABULARY---\n".data from by decide)]

/-! ## C3: a file without the marker loads as an empty (non-null) vocabulary -/

/-- The marker-searching loop reaches the end of the file without finding
the marker (the claim's "file lacks the `---VOCABULARY---` marker"). -/
def lacks_marker : Nat → List Char → Bool
  | 0, _ => false
  | fuel + 1, l =>
    match fgets255 l with
    | none => true
    | some (line, rest) =>
      if line = "---VOCABULARY---\n".data then false else lacks_marker fuel rest

theorem scan_marker_of_lacks :
    ∀ (fuel : Nat) (l : List Char), lacks_marker fuel l = true → scan_marker fuel l = []
  | 0, l, h => by simp [lacks_marker] at h
  | fuel + 1, l, h => by
    unfold lacks_marker at h
    unfold scan_marker
    cases hg : fgets255 l with
    | none => simp [hg]
    | some p =>
      obtain ⟨line, rest⟩ := p
      simp only [hg] at h ⊢
      by_cases hl : line = "---VOCABULARY---\n".data
      · rw [if_pos hl] at h
        exact absurd h (by decide)
      · rw [if_neg hl] at h
        rw [if_neg hl]
        exact scan_marker_of_lacks fuel rest h

theorem read_vocab_entries_nil (fuel : Nat) (ht : HashTable) :
    read_vocab_entries fuel [] ht = ht := by
  cases fuel with
  | zero => rfl
  | succ f => rfl

theorem load_vocabulary_of_scan (txt : List Char) (mc : Int) (r1 : List Char)
    (h : scan_int txt = some (mc, r1)) :
    load_vocabulary txt = load_vocabulary_after_header mc r1 := by
  unfold load_vocabulary
  rw [h]

theorem load_after_header_eq (mc : Int) (r1 : List Char) (merges : List String)
    (r2 : List Char) (h2 : ¬ mc < 0)
    (h3 : read_merges mc.toNat (r1.dropWhile isSpaceChar) = some (merges, r2)) :
    load_vocabulary_after_header mc r1 =
      some (read_vocab_entries ((scan_marker (r2.length + 1) r2).length + 1)
        (scan_marker (r2.length + 1) r2) (ht_create 100), merges) := by
  unfold load_vocabulary_after_header
  rw [if_neg h2, h3]

theorem ht_create_entries (n : Nat) : (ht_create n).entries = [] := by
  unfold ht_create HashTable.entries
  simp

set_option maxRecDepth 8192 in
/-- Counterexample to claim C3 as stated: the file `"0\nX\n"` has no
`---VOCABULARY---` marker, yet the loader returns a non-null result — a
vocabulary with zero entries and zero merges — instead of failing. -/
theorem C3_counterexample :
    (load_vocabulary ("0\nX\n".data)).map (fun p => (p.1.entries, p.2)) =
      some ([], []) := by
  decide

/-- Claim C3, amended: when the merge-count line parses and all announced
merge lines are present but the `---VOCABULARY---` marker is absent, the
loader does not fail: it returns a non-null vocabulary with zero entries
(together with the parsed merges).  The loader returns null only when the
merge header itself is missing or truncated. -/
theorem C3_missing_marker_loads_empty (txt : List Char) (mc : Int)
    (r1 : List Char) (merges : List String) (r2 : List Char)
    (h1 : scan_int txt = some (mc, r1)) (h2 : 0 ≤ mc)
    (h3 : read_merges mc.toNat (r1.dropWhile isSpaceChar) = some (merges, r2))
    (h4 : lacks_marker (r2.length + 1) r2 = true) :
    load_vocabulary txt = some (ht_create 100, merges) ∧ (ht_create 100).entries = [] := by
  constructor
  · rw [load_vocabulary_of_scan txt mc r1 h1,
      load_after_header_eq mc r1 merges r2 (by omega) h3,
      scan_marker_of_lacks _ _ h4, read_vocab_entries_nil]
  · exact ht_create_entries 100

/-- Witness for the amended C3 at the concrete file `"0\nX\n"`. -/
theorem C3_witness :
    load_vocabulary ("0\nX\n".data) = some (ht_create 100, []) ∧
      (ht_create 100).entries = [] :=
  C3_missing_marker_loads_empty ("0\nX\n".data) 0 ("\nX\n".data) [] ("X\n".data)
    (by decide) (by decide) (by decide) (by decide)

/-! ## C4: text format round trip -/

theorem scan_int_space_cons (c : Char) (l : List Char) (h : isSpaceChar c = true) :
    scan_int (c :: l) = scan_int l := by
  unfold scan_int
  rw [List.dropWhile_cons, if_pos (by simp [h])]

theorem scan_word255_exact (w : List Char) (c : Char) (rest : List Char)
    (hw : w ≠ []) (hws : ∀ x ∈ w, isSpaceChar x = false) (hlen : w.length ≤ 255)
    (hc : isSpaceChar c = true) :
    scan_word255 (w ++ c :: rest) = some (w, c :: rest) := by
  have hne : (w ++ c :: rest).dropWhile isSpaceChar = w ++ c :: rest := by
    cases w with
    | nil => exact absurd rfl hw
    | cons a t =>
      rw [List.cons_append]
      exact dropWhile_cons_of_false _ _ _ (hws a (List.mem_cons_self a t))
  have htk := takeWhile_append_stop (fun x => !isSpaceChar x) w c rest
    (fun x hx => by simp [hws x hx]) (by simp [hc])
  have hwE : w.isEmpty = false := by
    cases w with
    | nil => exact absurd rfl hw
    | cons a t => rfl
  unfold scan_word255
  simp only [hne, htk.1, List.take_of_length_le hlen, hwE, Bool.false_eq_true,
    if_false, List.drop_left]

/-- The vocabulary block written by `save_vocabulary`. -/
def entryLines (es : List (String × Int)) : List Char :=
  (es.map (fun e => e.1.data ++ '\t' :: (intToStr e.2 ++ ['\n']))).flatten

theorem save_vocabulary_decomp (vocab : HashTable) (merges : List String) :
    save_vocabulary vocab merges =
      intToStr (merges.length : Int) ++
        '\n' :: (mergeLines merges ++
          ("---VOCABULARY---\n".data ++ entryLines vocab.entries)) := by
  simp [save_vocabulary, mergeLines, entryLines, List.append_assoc]

theorem dropWhile_entryLines (es : List (String × Int))
    (h : ∀ e ∈ es, e.1.data ≠ [] ∧ ∀ c ∈ e.1.data, isSpaceChar c = false) :
    (entryLines es).dropWhile isSpaceChar = entryLines es := by
  cases es with
  | nil => rfl
  | cons e es' =>
    obtain ⟨hne, hns⟩ := h e (List.mem_cons_self e es')
    cases hke : e.1.data with
    | nil => exact absurd hke hne
    | cons a t =>
      have ha : isSpaceChar a = false := hns a (by rw [hke]; exact List.mem_cons_self a t)
      simp only [entryLines, List.map_cons, List.flatten_cons, hke, List.cons_append,
        List.append_assoc]
      exact dropWhile_cons_of_false _ _ _ ha

theorem entryLines_length_ge :
    ∀ es : List (String × Int), es.length ≤ (entryLines es).length
  | [] => Nat.le_refl 0
  | e :: es => by
    have ih := entryLines_length_ge es
    simp only [entryLines, List.map_cons, List.flatten_cons, List.length_append,
      List.length_cons] at *
    omega

theorem read_vocab_entries_exact :
    ∀ (es : List (String × Int)) (fuel : Nat) (ht : HashTable),
      (∀ e ∈ es, e.1.data ≠ [] ∧ (∀ c ∈ e.1.data, isSpaceChar c = false) ∧
        e.1.data.length ≤ 255) →
      es.length < fuel →
      read_vocab_entries fuel (entryLines es) ht =
        es.foldl (fun ht e => ht_set_or_insert_nocount ht e.1 e.2) ht
  | [], fuel, ht, _, hf => by
    match fuel, hf with
    | f + 1, _ => rfl
  | e :: es, fuel, ht, h, hf => by
    match fuel, hf with
    | f + 1, hf =>
      obtain ⟨hne, hns, hlen⟩ := h e (List.mem_cons_self _ _)
      have harr : entryLines (e :: es) =
          e.1.data ++ '\t' :: (intToStr e.2 ++ '\n' :: entryLines es) := by
        simp [entryLines, List.append_assoc]
      have hrest : ∀ e' ∈ es, e'.1.data ≠ [] ∧ (∀ c ∈ e'.1.data, isSpaceChar c = false) ∧
          e'.1.data.length ≤ 255 := fun e' he' => h e' (List.mem_cons_of_mem _ he')
      have hdw : ('\n' :: entryLines es).dropWhile isSpaceChar = entryLines es := by
        rw [List.dropWhile_cons, if_pos (by decide)]
        exact dropWhile_entryLines es (fun e' he' => ⟨(hrest e' he').1, (hrest e' he').2.1⟩)
      rw [harr]
      simp only [read_vocab_entries,
        scan_word255_exact e.1.data '\t' _ hne hns hlen (by decide),
        scan_int_space_cons '\t' _ (by decide),
        scan_int_exact e.2 '\n' _ (by decide), hdw]
      have ih := read_vocab_entries_exact es f
        (ht_set_or_insert_nocount ht (String.mk e.1.data) e.2) hrest
        (by simp only [List.length_cons] at hf; omega)
      rw [ih]
      rfl

theorem bucket_search_mem (k : String) :
    ∀ (b : List (String × Int)) (c : Int), bucket_search k b = some c → (k, c) ∈ b
  | [], c, h => by simp [bucket_search] at h
  | e :: es, c, h => by
    by_cases he : e.1 = k
    · simp only [bucket_search, if_pos he] at h
      injection h with h2
      have : e = (k, c) := by
        obtain ⟨e1, e2⟩ := e
        simp only at he h2
        rw [he, h2]
      rw [← this]
      exact List.mem_cons_self e es
    · simp only [bucket_search, if_neg he] at h
      exact List.mem_cons_of_mem _ (bucket_search_mem k es c h)

theorem hash_search_none_of_not_mem (T : HashTable) (k : String)
    (h : k ∉ T.entries.map Prod.fst) : hash_search T k = none := by
  cases hs : hash_search T k with
  | none => rfl
  | some c =>
    exfalso
    unfold hash_search at hs
    have hmem := bucket_search_mem k _ c hs
    by_cases hlt : hash k T.size < T.items.length
    · apply h
      have hbmem : (k, c) ∈ T.entries := by
        unfold HashTable.entries
        rw [List.mem_flatten]
        refine ⟨T.items.getD (hash k T.size) [], ?_, hmem⟩
        rw [getD_eq_getElem _ _ _ hlt]
        exact List.getElem_mem hlt
      exact List.mem_map_of_mem Prod.fst hbmem
    · rw [List.getD_eq_default _ _ (Nat.le_of_not_lt hlt)] at hmem
      simp at hmem

theorem foldl_set_or_insert_fresh :
    ∀ (es : List (String × Int)) (T : HashTable),
      0 < T.size → ((es.map Prod.fst).Nodup) →
      (∀ e ∈ es, e.1 ∉ T.entries.map Prod.fst) →
      ((es.foldl (fun ht e => ht_set_or_insert_nocount ht e.1 e.2) T).entries).Perm
          (T.entries ++ es) ∧
        (es.foldl (fun ht e => ht_set_or_insert_nocount ht e.1 e.2) T).size = T.size
  | [], T, _, _, _ => ⟨by simp, rfl⟩
  | e :: es, T, hsz, hnd, hfresh => by
    have hsearch : hash_search T e.1 = none :=
      hash_search_none_of_not_mem T e.1 (hfresh e (List.mem_cons_self _ _))
    have hslot : hash e.1 T.size < T.items.length := Nat.mod_lt _ hsz
    have hT'items : (ht_set_or_insert_nocount T e.1 e.2).items =
        T.items.set (hash e.1 T.size)
          ((e.1, e.2) :: T.items.getD (hash e.1 T.size) []) := by
      unfold ht_set_or_insert_nocount
      rw [hsearch]
    have hT'size : (ht_set_or_insert_nocount T e.1 e.2).size = T.size := by
      show (ht_set_or_insert_nocount T e.1 e.2).items.length = T.items.length
      rw [hT'items, List.length_set]
    have hperm : (ht_set_or_insert_nocount T e.1 e.2).entries.Perm ((e.1, e.2) :: T.entries) := by
      show (ht_set_or_insert_nocount T e.1 e.2).items.flatten.Perm ((e.1, e.2) :: T.items.flatten)
      rw [hT'items]
      exact set_prepend_flatten_perm _ _ _ hslot
    have hndtail : (es.map Prod.fst).Nodup := by
      simp only [List.map_cons, List.nodup_cons] at hnd
      exact hnd.2
    have hheadfresh : e.1 ∉ es.map Prod.fst := by
      simp only [List.map_cons, List.nodup_cons] at hnd
      exact hnd.1
    have hfresh' : ∀ e' ∈ es, e'.1 ∉ (ht_set_or_insert_nocount T e.1 e.2).entries.map Prod.fst := by
      intro e' he' hmem
      have := ((hperm.map Prod.fst).mem_iff).mp hmem
      simp only [List.map_cons, List.mem_cons] at this
      rcases this with hcase | hcase
      · exact hheadfresh (hcase ▸ List.mem_map_of_mem Prod.fst he')
      · exact hfresh e' (List.mem_cons_of_mem _ he') hcase
    have ih := foldl_set_or_insert_fresh es (ht_set_or_insert_nocount T e.1 e.2)
      (by rw [hT'size]; exact hsz) hndtail hfresh'
    constructor
    · show ((es.foldl _ (ht_set_or_insert_nocount T e.1 e.2)).entries).Perm (T.entries ++ e :: es)
      refine ih.1.trans ?_
      refine (hperm.append_right es).trans ?_
      simp only [List.cons_append]
      exact List.perm_middle.symm
    · show (es.foldl _ (ht_set_or_insert_nocount T e.1 e.2)).size = T.size
      rw [ih.2, hT'size]

theorem ht_create_size_pos : 0 < (ht_create 100).size := by decide

set_option maxRecDepth 8192 in
/-- Counterexample to claim C4 as stated: saving the vocabulary
`{"A B" ↦ 1}` (a token containing a space) and loading the produced file
yields an empty vocabulary — the `fscanf("%255s\t%d")` parse splits the
token at its space and fails — so the (token → count) set is not
reproduced. -/
theorem C4_counterexample :
    (load_vocabulary (save_vocabulary ⟨[[("A B", 1)]], 1⟩ [])).map
        (fun p => (p.1.entries, p.2)) = some ([], []) ∧
      ¬ ([] : List (String × Int)).Perm [("A B", 1)] := by
  constructor
  · decide
  · intro hp
    exact absurd hp.length_eq (by decide)

/-- Claim C4, amended: for every vocabulary table whose tokens are
nonempty, whitespace-free and at most 255 bytes long and whose keys are
duplicate-free, and every merge list whose entries contain no newline and
are at most 254 bytes long (the first one, if any, not starting with
whitespace), saving to the text format and loading the produced file
reproduces the identical (token → count) set and the identical ordered
merge list. -/
theorem C4_text_round_trip (vocab : HashTable) (merges : List String)
    (hkeys : ∀ e ∈ vocab.entries, e.1.data ≠ [] ∧
      (∀ c ∈ e.1.data, isSpaceChar c = false) ∧ e.1.data.length ≤ 255)
    (hnodup : (vocab.entries.map Prod.fst).Nodup)
    (hmerges : ∀ m ∈ merges, '\n' ∉ m.data ∧ m.data.length ≤ 254)
    (hfirst : ∀ m0 ∈ merges.take 1, m0.data ≠ [] ∧
      ∀ d ∈ m0.data.take 1, isSpaceChar d = false) :
    ∃ w : HashTable,
      load_vocabulary (save_vocabulary vocab merges) = some (w, merges) ∧
        w.entries.Perm vocab.entries := by
  have hdw : (mergeLines merges ++
      ("---VOCABULARY---\n".data ++ entryLines vocab.entries)).dropWhile isSpaceChar =
      mergeLines merges ++ ("---VOCABULARY---\n".data ++ entryLines vocab.entries) := by
    cases hms : merges with
    | nil =>
      rw [show (mergeLines [] : List Char) = [] from rfl]
      simp only [List.nil_append]
      rw [List.cons_append]
      exact dropWhile_cons_of_false _ _ _ (by decide)
    | cons m0 ms =>
      obtain ⟨hne0, hns0⟩ := hfirst m0 (by rw [hms]; simp)
      cases hk0 : m0.data with
      | nil => exact absurd hk0 hne0
      | cons d t =>
        have hd : isSpaceChar d = false := hns0 d (by rw [hk0]; simp)
        simp only [mergeLines, List.map_cons, List.flatten_cons, hk0, List.cons_append,
          List.append_assoc]
        exact dropWhile_cons_of_false _ _ _ hd
  have hmlen : ¬ ((merges.length : Int) < 0) := by
    have := Int.natCast_nonneg merges.length
    omega
  have hfold := foldl_set_or_insert_fresh vocab.entries (ht_create 100)
    ht_create_size_pos hnodup
    (by
      intro e _ hmem
      rw [ht_create_entries] at hmem
      simp at hmem)
  have hdw2 : ('\n' :: (mergeLines merges ++
      ("---VOCABULARY---\n".data ++ entryLines vocab.entries))).dropWhile isSpaceChar =
      mergeLines merges ++ ("---VOCABULARY---\n".data ++ entryLines vocab.entries) := by
    rw [List.dropWhile_cons, if_pos (by decide)]
    exact hdw
  have hscan : scan_int (save_vocabulary vocab merges) =
      some ((merges.length : Int),
        '\n' :: (mergeLines merges ++
          ("---VOCABULARY---\n".data ++ entryLines vocab.entries))) := by
    rw [save_vocabulary_decomp]
    exact scan_int_exact _ '\n' _ (by decide)
  have h3 : read_merges (merges.length : Int).toNat
      (('\n' :: (mergeLines merges ++
        ("---VOCABULARY---\n".data ++ entryLines vocab.entries))).dropWhile isSpaceChar) =
      some (merges, "---VOCABULARY---\n".data ++ entryLines vocab.entries) := by
    rw [Int.toNat_natCast, hdw2]
    exact read_merges_exact merges _ hmerges
  have hmark : scan_marker
      (("---VOCABULARY---\n".data ++ entryLines vocab.entries).length + 1)
      ("---VOCABULARY---\n".data ++ entryLines vocab.entries) = entryLines vocab.entries :=
    scan_marker_hit _ _ (Nat.succ_pos _)
  refine ⟨vocab.entries.foldl (fun ht e => ht_set_or_insert_nocount ht e.1 e.2)
    (ht_create 100), ?_, ?_⟩
  · rw [load_vocabulary_of_scan _ _ _ hscan,
      load_after_header_eq _ _ merges _ hmlen h3, hmark,
      read_vocab_entries_exact vocab.entries _ (ht_create 100) hkeys
        (Nat.lt_succ_of_le (entryLines_length_ge vocab.entries))]
  · refine hfold.1.trans ?_
    rw [ht_create_entries]
    exact List.Perm.refl _

/-- Witness for the amended C4 at a concrete vocabulary and merge list. -/
theorem C4_witness :
    ∃ w : HashTable,
      load_vocabulary (save_vocabulary ⟨[[("ab", 3), ("c", 1)]], 2⟩ ["a b", "x y"]) =
          some (w, ["a b", "x y"]) ∧
        w.entries.Perm [("ab", 3), ("c", 1)] :=
  C4_text_round_trip ⟨[[("ab", 3), ("c", 1)]], 2⟩ ["a b", "x y"]
    (by decide) (by decide) (by decide) (by decide)

/-! ## C2: JSON round trip — parsing the generated files -/

theorem string_mk_data (s : String) : String.mk s.data = s := rfl

theorem flatten_map_escape_id :
    ∀ l : List Char, (∀ c ∈ l, jsonEscapeChar c = [c]) →
      (l.map jsonEscapeChar).flatten = l
  | [], _ => rfl
  | c :: l, h => by
    simp only [List.map_cons, List.flatten_cons, h c (List.mem_cons_self c l),
      flatten_map_escape_id l (fun x hx => h x (List.mem_cons_of_mem _ hx)),
      List.singleton_append]

theorem json_escape_string_of_escapeFree (s : String) (h : escapeFree s = true) :
    json_escape_string s = s := by
  unfold escapeFree at h
  rw [List.all_eq_true] at h
  unfold json_escape_string
  rw [flatten_map_escape_id s.data (fun c hc => by
    have := h c hc
    exact of_decide_eq_true this)]

/-- An escape-free token contains no `"` character. -/
theorem escapeFree_no_quote (s : String) (h : escapeFree s = true) : '"' ∉ s.data := by
  intro hq
  unfold escapeFree at h
  rw [List.all_eq_true] at h
  have := of_decide_eq_true (h '"' hq)
  exact absurd this (by decide)

theorem splitAtChar_exact (sep : Char) :
    ∀ (pre post : List Char), sep ∉ pre →
      splitAtChar sep (pre ++ sep :: post) = some (pre, post)
  | [], post, _ => by simp [splitAtChar]
  | c :: pre, post, h => by
    have hc : ¬ c = sep := fun hh => h (hh ▸ List.mem_cons_self c pre)
    have ih := splitAtChar_exact sep pre post (fun hh => h (List.mem_cons_of_mem _ hh))
    simp [splitAtChar, hc, ih]

theorem atoi_lead_exact (v : Int) (c : Char) (rest : List Char)
    (hc : isDigitChar c = false) :
    atoi_lead (intToStr v ++ c :: rest) = v := by
  unfold intToStr
  by_cases hv : v < 0
  · rw [if_pos hv, List.cons_append]
    simp only [atoi_lead]
    rw [if_pos trivial,
      (takeWhile_append_stop isDigitChar (natToStr (-v).toNat) c rest
        (natToStr_digits _) hc).1, natToStr_val]
    have : ((-v).toNat : Int) = -v := Int.toNat_of_nonneg (by omega)
    rw [this]
    simp
  · rw [if_neg hv]
    cases hns : natToStr v.toNat with
    | nil => exact absurd hns (natToStr_ne_nil _)
    | cons d ds =>
      have hdd : isDigitChar d = true :=
        natToStr_digits v.toNat d (by rw [hns]; exact List.mem_cons_self d ds)
      rw [List.cons_append]
      simp only [atoi_lead]
      rw [if_neg (by intro hh; rw [hh] at hdd; exact absurd hdd (by decide))]
      rw [← List.cons_append, ← hns,
        (takeWhile_append_stop isDigitChar (natToStr v.toNat) c rest
          (natToStr_digits _) hc).1, natToStr_val]
      exact Int.toNat_of_nonneg (by omega)

theorem intToStr_head (v : Int) :
    ∃ d ds, intToStr v = d :: ds ∧ (isDigitChar d = true ∨ d = '-') := by
  unfold intToStr
  by_cases hv : v < 0
  · exact ⟨'-', natToStr (-v).toNat, by rw [if_pos hv], Or.inr rfl⟩
  · rw [if_neg hv]
    cases hns : natToStr v.toNat with
    | nil => exact absurd hns (natToStr_ne_nil _)
    | cons d ds =>
      exact ⟨d, ds, rfl,
        Or.inl (natToStr_digits v.toNat d (by rw [hns]; exact List.mem_cons_self d ds))⟩

theorem intToStr_all_numskip (v : Int) : ∀ x ∈ intToStr v, isNumSkipChar x = true := by
  intro x hx
  unfold intToStr at hx
  by_cases hv : v < 0
  · rw [if_pos hv] at hx
    rcases List.mem_cons.mp hx with hx | hx
    · rw [hx]; decide
    · unfold isNumSkipChar
      rw [natToStr_digits _ x hx]
      rfl
  · rw [if_neg hv] at hx
    unfold isNumSkipChar
    rw [natToStr_digits _ x hx]
    rfl

theorem dropWhile_numskip_exact (v : Int) (c : Char) (rest : List Char)
    (hc : isNumSkipChar c = false) :
    (intToStr v ++ c :: rest).dropWhile isNumSkipChar = c :: rest :=
  (takeWhile_append_stop isNumSkipChar (intToStr v) c rest (intToStr_all_numskip v) hc).2

theorem skip_to_comma_comma (X : List Char) : skip_to_comma (',' :: X) = X := by
  unfold skip_to_comma
  rw [dropWhile_cons_of_false _ _ _ (by decide)]
  simp

theorem skip_to_comma_nl_rbrace (X : List Char) :
    skip_to_comma ('\n' :: '\x7d' :: X) = '\x7d' :: X := by
  unfold skip_to_comma
  rw [List.dropWhile_cons, if_pos (by decide),
    dropWhile_cons_of_false _ _ _ (by decide)]
  simp

theorem skip_to_lbrace_brace (X : List Char) : skip_to_lbrace ('\x7b' :: X) = X := by
  unfold skip_to_lbrace
  rw [dropWhile_cons_of_false _ _ _ (by decide)]
  simp

theorem jsonEntryLine_decomp (key : String) (v : Int) (comma : Bool) :
    jsonEntryLine key v comma =
      ' ' :: ' ' :: '"' :: (key.data ++ '"' :: ':' :: ' ' ::
        (intToStr v ++ ((if comma then [','] else []) ++ ['\n']))) := by
  unfold jsonEntryLine
  simp [List.append_assoc]

theorem json_parse_pairs_rbrace :
    ∀ (fuel : Nat) (X : List Char) (v : HashTable) (m : List String),
      json_parse_pairs fuel ('\x7d' :: X) v m = (v, m)
  | 0, _, _, _ => rfl
  | fuel + 1, X, v, m => by
    simp [json_parse_pairs, dropWhile_cons_of_false isSpaceChar '\x7d' X (by decide)]

theorem json_parse_pairs_nl_rbrace :
    ∀ (fuel : Nat) (X : List Char) (v : HashTable) (m : List String),
      json_parse_pairs fuel ('\n' :: '\x7d' :: X) v m = (v, m)
  | 0, _, _, _ => rfl
  | fuel + 1, X, v, m => by
    have hdrop : ('\n' :: '\x7d' :: X).dropWhile isSpaceChar = '\x7d' :: X := by
      rw [List.dropWhile_cons, if_pos (by decide)]
      exact dropWhile_cons_of_false _ _ _ (by decide)
    simp [json_parse_pairs, hdrop]

theorem json_parse_freq_rbrace :
    ∀ (fuel : Nat) (X : List Char) (v : HashTable),
      json_parse_freq fuel ('\x7d' :: X) v = v
  | 0, _, _ => rfl
  | fuel + 1, X, v => by
    simp [json_parse_freq, dropWhile_cons_of_false isSpaceChar '\x7d' X (by decide)]

theorem json_parse_freq_nl_rbrace :
    ∀ (fuel : Nat) (X : List Char) (v : HashTable),
      json_parse_freq fuel ('\n' :: '\x7d' :: X) v = v
  | 0, _, _ => rfl
  | fuel + 1, X, v => by
    have hdrop : ('\n' :: '\x7d' :: X).dropWhile isSpaceChar = '\x7d' :: X := by
      rw [List.dropWhile_cons, if_pos (by decide)]
      exact dropWhile_cons_of_false _ _ _ (by decide)
    simp [json_parse_freq, hdrop]

/-- One numeric `"key": value` line of a generated JSON file, parsed by the
vocabulary-file loop: the key is inserted with the numeric value. -/
theorem json_step_num (fuel : Nat) (key : String) (v : Int) (comma : Bool)
    (rest : List Char) (vocab : HashTable) (merges : List String)
    (hq : '"' ∉ key.data) :
    json_parse_pairs (fuel + 1) ('\n' :: (jsonEntryLine key v comma ++ rest)) vocab merges =
      json_parse_pairs fuel (skip_to_comma ((if comma then [','] else []) ++ '\n' :: rest))
        (ht_raw_insert vocab key v) merges := by
  obtain ⟨d, ds, hds, hd⟩ := intToStr_head v
  have hdns : isSpaceChar d = false := by
    rcases hd with hd | hd
    · exact digit_not_space d hd
    · rw [hd]; decide
  have hdnq : ¬ d = '"' := by
    rcases hd with hd | hd
    · intro hh; rw [hh] at hd; exact absurd hd (by decide)
    · intro hh; rw [hh] at hd; exact absurd hd (by decide)
  have hdig : (isDigitChar d || d = '-') = true := by
    rcases hd with hd | hd
    · simp [hd]
    · simp [hd]
  have hsep2 : ∃ e es2, (if comma then [','] else []) ++ '\n' :: rest = e :: es2 ∧
      isDigitChar e = false ∧ isNumSkipChar e = false := by
    cases comma with
    | true => exact ⟨',', '\n' :: rest, rfl, by decide, by decide⟩
    | false => exact ⟨'\n', rest, rfl, by decide, by decide⟩
  obtain ⟨e, es2, hsep, he1, he2⟩ := hsep2
  have hinput : '\n' :: (jsonEntryLine key v comma ++ rest) =
      '\n' :: ' ' :: ' ' :: '"' :: (key.data ++ '"' :: ':' :: ' ' ::
        (intToStr v ++ ((if comma then [','] else []) ++ '\n' :: rest))) := by
    rw [jsonEntryLine_decomp]
    simp [List.append_assoc]
  have hdrop1 : ('\n' :: ' ' :: ' ' :: '"' :: (key.data ++ '"' :: ':' :: ' ' ::
      (intToStr v ++ (e :: es2)))).dropWhile isSpaceChar =
      '"' :: (key.data ++ '"' :: ':' :: ' ' :: (intToStr v ++ (e :: es2))) := by
    rw [List.dropWhile_cons, if_pos (by decide), List.dropWhile_cons, if_pos (by decide),
      List.dropWhile_cons, if_pos (by decide)]
    exact dropWhile_cons_of_false _ _ _ (by decide)
  have hsplit1 : splitAtChar '"' (key.data ++ '"' :: ':' :: ' ' ::
      (intToStr v ++ (e :: es2))) =
      some (key.data, ':' :: ' ' :: (intToStr v ++ (e :: es2))) :=
    splitAtChar_exact '"' key.data _ hq
  have hsplit2 : splitAtChar ':' (':' :: ' ' :: (intToStr v ++ (e :: es2))) =
      some ([], ' ' :: (intToStr v ++ (e :: es2))) := by
    simp [splitAtChar]
  have hdrop2 : (' ' :: (intToStr v ++ (e :: es2))).dropWhile isSpaceChar =
      d :: (ds ++ (e :: es2)) := by
    rw [List.dropWhile_cons, if_pos (by decide), hds, List.cons_append]
    exact dropWhile_cons_of_false _ _ _ hdns
  have hback : d :: (ds ++ (e :: es2)) = intToStr v ++ (e :: es2) := by
    rw [hds, List.cons_append]
  have hatoi : atoi_lead (d :: (ds ++ (e :: es2))) = v := by
    rw [hback]
    exact atoi_lead_exact v e es2 he1
  have hnum : (d :: (ds ++ (e :: es2))).dropWhile isNumSkipChar = e :: es2 := by
    rw [hback]
    exact dropWhile_numskip_exact v e es2 he2
  rw [hinput, hsep]
  have hne1 : ¬ (('"' : Char) = '\x7d') := by decide
  simp only [json_parse_pairs, hdrop1, hne1, hsplit1, hsplit2, hdrop2, hatoi, hnum,
    string_mk_data, hdig, eq_self_iff_true, if_true, if_false, ite_false, ite_true,
    if_neg hdnq]

theorem dropWhile_append_all {p : Char → Bool} :
    ∀ (pre X : List Char), (∀ x ∈ pre, p x = true) →
      (pre ++ X).dropWhile p = X.dropWhile p
  | [], X, _ => rfl
  | c :: pre, X, h => by
    rw [List.cons_append, List.dropWhile_cons, if_pos (h c (List.mem_cons_self c pre))]
    exact dropWhile_append_all pre X (fun x hx => h x (List.mem_cons_of_mem _ hx))

theorem numskip_passes_comma_scan (x : Char) (h : isNumSkipChar x = true) :
    (!(x = ',' || x = '\x7d')) = true := by
  have h1 : ¬ x = ',' := fun hh => by rw [hh] at h; exact absurd h (by decide)
  have h2 : ¬ x = '\x7d' := fun hh => by rw [hh] at h; exact absurd h (by decide)
  simp [h1, h2]

theorem skip_to_comma_over_num (v : Int) (X : List Char) :
    skip_to_comma (intToStr v ++ X) = skip_to_comma X := by
  unfold skip_to_comma
  rw [dropWhile_append_all (intToStr v) X
    (fun x hx => numskip_passes_comma_scan x (intToStr_all_numskip v x hx))]

/-- One numeric `"key": value` line of the frequency file, parsed by the
frequency loop: the matching token's count is updated. -/
theorem json_freq_step_num (fuel : Nat) (key : String) (v : Int) (comma : Bool)
    (rest : List Char) (T : HashTable) (hq : '"' ∉ key.data) :
    json_parse_freq (fuel + 1) ('\n' :: (jsonEntryLine key v comma ++ rest)) T =
      json_parse_freq fuel (skip_to_comma ((if comma then [','] else []) ++ '\n' :: rest))
        (ht_update_if_found T key v) := by
  obtain ⟨d, ds, hds, hd⟩ := intToStr_head v
  have hdns : isSpaceChar d = false := by
    rcases hd with hd | hd
    · exact digit_not_space d hd
    · rw [hd]; decide
  have hdnq : ¬ d = '"' := by
    rcases hd with hd | hd
    · intro hh; rw [hh] at hd; exact absurd hd (by decide)
    · intro hh; rw [hh] at hd; exact absurd hd (by decide)
  have hdig : (isDigitChar d || d = '-') = true := by
    rcases hd with hd | hd
    · simp [hd]
    · simp [hd]
  have hsep2 : ∃ e es2, (if comma then [','] else []) ++ '\n' :: rest = e :: es2 ∧
      isDigitChar e = false ∧ isNumSkipChar e = false := by
    cases comma with
    | true => exact ⟨',', '\n' :: rest, rfl, by decide, by decide⟩
    | false => exact ⟨'\n', rest, rfl, by decide, by decide⟩
  obtain ⟨e, es2, hsep, he1, he2⟩ := hsep2
  have hinput : '\n' :: (jsonEntryLine key v comma ++ rest) =
      '\n' :: ' ' :: ' ' :: '"' :: (key.data ++ '"' :: ':' :: ' ' ::
        (intToStr v ++ ((if comma then [','] else []) ++ '\n' :: rest))) := by
    rw [jsonEntryLine_decomp]
    simp [List.append_assoc]
  have hdrop1 : ('\n' :: ' ' :: ' ' :: '"' :: (key.data ++ '"' :: ':' :: ' ' ::
      (intToStr v ++ (e :: es2)))).dropWhile isSpaceChar =
      '"' :: (key.data ++ '"' :: ':' :: ' ' :: (intToStr v ++ (e :: es2))) := by
    rw [List.dropWhile_cons, if_pos (by decide), List.dropWhile_cons, if_pos (by decide),
      List.dropWhile_cons, if_pos (by decide)]
    exact dropWhile_cons_of_false _ _ _ (by decide)
  have hsplit1 : splitAtChar '"' (key.data ++ '"' :: ':' :: ' ' ::
      (intToStr v ++ (e :: es2))) =
      some (key.data, ':' :: ' ' :: (intToStr v ++ (e :: es2))) :=
    splitAtChar_exact '"' key.data _ hq
  have hsplit2 : splitAtChar ':' (':' :: ' ' :: (intToStr v ++ (e :: es2))) =
      some ([], ' ' :: (intToStr v ++ (e :: es2))) := by
    simp [splitAtChar]
  have hdrop2 : (' ' :: (intToStr v ++ (e :: es2))).dropWhile isSpaceChar =
      d :: (ds ++ (e :: es2)) := by
    rw [List.dropWhile_cons, if_pos (by decide), hds, List.cons_append]
    exact dropWhile_cons_of_false _ _ _ hdns
  have hback : d :: (ds ++ (e :: es2)) = intToStr v ++ (e :: es2) := by
    rw [hds, List.cons_append]
  have hatoi : atoi_lead (d :: (ds ++ (e :: es2))) = v := by
    rw [hback]
    exact atoi_lead_exact v e es2 he1
  have hskip : skip_to_comma (d :: (ds ++ (e :: es2))) = skip_to_comma (e :: es2) := by
    rw [hback]
    exact skip_to_comma_over_num v (e :: es2)
  rw [hinput, hsep]
  have hne1 : ¬ (('"' : Char) = '\x7d') := by decide
  simp only [json_parse_freq, hdrop1, hne1, hsplit1, hsplit2, hdrop2, hatoi, hskip,
    string_mk_data, hdig, eq_self_iff_true, if_true, if_false, ite_false, ite_true,
    if_neg hdnq]

/-! ## Parsing the whole generated vocabulary and frequency files -/

/-- The inserts performed while parsing the non-special token lines: each
escaped token is pushed with its sequential index as the stored value. -/
def insertIdxFold (idx : Nat) : List (String × Int) → HashTable → HashTable
  | [], T => T
  | e :: es, T => insertIdxFold (idx + 1) es (ht_raw_insert T (json_escape_string e.1) idx)

/-- The inserts performed while parsing the five special-token lines. -/
def insertSpecials (T : HashTable) : HashTable :=
  ht_raw_insert (ht_raw_insert (ht_raw_insert (ht_raw_insert
    (ht_raw_insert T "<s>" 0) "<pad>" 1) "</s>" 2) "<unk>" 3) "<mask>" 4

theorem json_parse_vocabLines :
    ∀ (toks : List (String × Int)) (idx : Nat) (fuel : Nat) (T : HashTable)
      (m : List String),
      (∀ e ∈ toks, '"' ∉ (json_escape_string e.1).data) →
      toks.length < fuel →
      json_parse_pairs fuel ('\n' :: (vocabJsonLines idx toks ++ "\x7d\n".data)) T m =
        (insertIdxFold idx toks T, m)
  | [], idx, fuel, T, m, _, _ => by
    show json_parse_pairs fuel ('\n' :: ([] ++ "\x7d\n".data)) T m = (T, m)
    rw [List.nil_append]
    exact json_parse_pairs_nl_rbrace fuel ['\n'] T m
  | e :: es, idx, fuel, T, m, hq, hf => by
    match fuel, hf with
    | f + 1, hf =>
      have hline : '\n' :: (vocabJsonLines idx (e :: es) ++ "\x7d\n".data) =
          '\n' :: (jsonEntryLine (json_escape_string e.1) idx (!es.isEmpty) ++
            (vocabJsonLines (idx + 1) es ++ "\x7d\n".data)) := by
        simp [vocabJsonLines, List.append_assoc]
      rw [hline, json_step_num f _ _ _ _ T m (hq e (List.mem_cons_self _ _))]
      cases es with
      | nil =>
        show json_parse_pairs f
          (skip_to_comma ((if !([] : List (String × Int)).isEmpty then [','] else []) ++
            '\n' :: ([] ++ "\x7d\n".data))) _ m = _
        rw [show (!([] : List (String × Int)).isEmpty) = false from rfl, if_neg (by simp),
          List.nil_append, List.nil_append]
        rw [show ("\x7d\n".data : List Char) = '\x7d' :: ['\n'] from rfl,
          skip_to_comma_nl_rbrace]
        rw [json_parse_pairs_rbrace]
        rfl
      | cons e2 es2 =>
        rw [show (!((e2 :: es2) : List (String × Int)).isEmpty) = true from rfl,
          if_pos rfl, List.cons_append, skip_to_comma_comma, List.nil_append]
        rw [json_parse_vocabLines (e2 :: es2) (idx + 1) f _ m
          (fun x hx => hq x (List.mem_cons_of_mem _ hx))
          (by simp only [List.length_cons] at hf ⊢; omega)]
        rfl

theorem json_parse_freqLines :
    ∀ (toks : List (String × Int)) (fuel : Nat) (T : HashTable),
      (∀ e ∈ toks, '"' ∉ (json_escape_string e.1).data) →
      toks.length < fuel →
      json_parse_freq fuel ('\n' :: (freqJsonLines toks ++ "\x7d\n".data)) T =
        toks.foldl (fun h e => ht_update_if_found h (json_escape_string e.1) e.2) T
  | [], fuel, T, _, _ => by
    show json_parse_freq fuel ('\n' :: ([] ++ "\x7d\n".data)) T = T
    rw [List.nil_append]
    exact json_parse_freq_nl_rbrace fuel ['\n'] T
  | e :: es, fuel, T, hq, hf => by
    match fuel, hf with
    | f + 1, hf =>
      have hline : '\n' :: (freqJsonLines (e :: es) ++ "\x7d\n".data) =
          '\n' :: (jsonEntryLine (json_escape_string e.1) e.2 (!es.isEmpty) ++
            (freqJsonLines es ++ "\x7d\n".data)) := by
        simp [freqJsonLines, List.append_assoc]
      rw [hline, json_freq_step_num f _ _ _ _ T (hq e (List.mem_cons_self _ _))]
      cases es with
      | nil =>
        show json_parse_freq f
          (skip_to_comma ((if !([] : List (String × Int)).isEmpty then [','] else []) ++
            '\n' :: ([] ++ "\x7d\n".data))) _ = _
        rw [show (!([] : List (String × Int)).isEmpty) = false from rfl, if_neg (by simp),
          List.nil_append, List.nil_append]
        rw [show ("\x7d\n".data : List Char) = '\x7d' :: ['\n'] from rfl,
          skip_to_comma_nl_rbrace]
        rw [json_parse_freq_rbrace]
        rfl
      | cons e2 es2 =>
        rw [show (!((e2 :: es2) : List (String × Int)).isEmpty) = true from rfl,
          if_pos rfl, List.cons_append, skip_to_comma_comma, List.nil_append]
        rw [json_parse_freqLines (e2 :: es2) f _
          (fun x hx => hq x (List.mem_cons_of_mem _ hx))
          (by simp only [List.length_cons] at hf ⊢; omega)]
        rfl

theorem non_special_entries_of_size_zero (vocab : HashTable) (h : vocab.size = 0) :
    non_special_entries vocab = [] := by
  have hit : vocab.items = [] := List.length_eq_zero.mp h
  simp [non_special_entries, HashTable.entries, hit]

/-- Parsing the body of the generated vocabulary JSON file: the five special
tokens are inserted with indices 0–4, then every non-special token with its
sequential index from 5. -/
theorem json_vocab_content_parse (vocab : HashTable) (mc : Nat) (fuel : Nat)
    (T : HashTable) (m : List String)
    (hq : ∀ e ∈ non_special_entries vocab, '"' ∉ (json_escape_string e.1).data)
    (hf : (non_special_entries vocab).length + 5 < fuel) :
    json_parse_pairs fuel
      ('\n' :: (specialsJsonLines vocab.size mc ++
        (vocabJsonLines 5 (non_special_entries vocab) ++ "\x7d\n".data))) T m =
      (insertIdxFold 5 (non_special_entries vocab) (insertSpecials T), m) := by
  obtain ⟨f, rfl⟩ : ∃ f, fuel = f + 5 := ⟨fuel - 5, by omega⟩
  have hlt : (non_special_entries vocab).length < f := by omega
  have hshape : '\n' :: (specialsJsonLines vocab.size mc ++
      (vocabJsonLines 5 (non_special_entries vocab) ++ "\x7d\n".data)) =
      '\n' :: (jsonEntryLine "<s>" 0 true ++ (jsonEntryLine "<pad>" 1 true ++
        (jsonEntryLine "</s>" 2 true ++ (jsonEntryLine "<unk>" 3 true ++
          (jsonEntryLine "<mask>" 4 (decide (0 < vocab.size) || decide (0 < mc)) ++
            (vocabJsonLines 5 (non_special_entries vocab) ++ "\x7d\n".data)))))) := by
    simp [specialsJsonLines, List.append_assoc]
  rw [hshape, (by omega : f + 5 = f + 4 + 1),
    json_step_num (f + 4) "<s>" 0 true _ T m (by decide),
    if_pos rfl, List.cons_append, skip_to_comma_comma, List.nil_append,
    (by omega : f + 4 = f + 3 + 1),
    json_step_num (f + 3) "<pad>" 1 true _ _ m (by decide),
    if_pos rfl, List.cons_append, skip_to_comma_comma, List.nil_append,
    (by omega : f + 3 = f + 2 + 1),
    json_step_num (f + 2) "</s>" 2 true _ _ m (by decide),
    if_pos rfl, List.cons_append, skip_to_comma_comma, List.nil_append,
    (by omega : f + 2 = f + 1 + 1),
    json_step_num (f + 1) "<unk>" 3 true _ _ m (by decide),
    if_pos rfl, List.cons_append, skip_to_comma_comma, List.nil_append,
    json_step_num f "<mask>" 4 _ _ _ m (by decide)]
  cases hcm : (decide (0 < vocab.size) || decide (0 < mc)) with
  | true =>
    rw [if_pos rfl, List.cons_append, skip_to_comma_comma, List.nil_append,
      json_parse_vocabLines (non_special_entries vocab) 5 f _ m hq hlt]
    rfl
  | false =>
    simp only [Bool.or_eq_false_iff, decide_eq_false_iff_not, Nat.not_lt,
      Nat.le_zero] at hcm
    have htoks : non_special_entries vocab = [] :=
      non_special_entries_of_size_zero vocab hcm.1
    rw [htoks, if_neg (by decide : ¬ (false = true)), List.nil_append]
    show json_parse_pairs f (skip_to_comma ('\n' :: ([] ++ "\x7d\n".data))) _ m = _
    rw [List.nil_append, show ("\x7d\n".data : List Char) = '\x7d' :: ['\n'] from rfl,
      skip_to_comma_nl_rbrace, json_parse_pairs_rbrace]
    rfl

theorem jsonEntryLine_length_pos (key : String) (v : Int) (comma : Bool) :
    0 < (jsonEntryLine key v comma).length := by
  rw [jsonEntryLine_decomp]
  simp

theorem vocabJsonLines_length_ge :
    ∀ (idx : Nat) (toks : List (String × Int)),
      toks.length ≤ (vocabJsonLines idx toks).length
  | _, [] => by simp [vocabJsonLines]
  | idx, e :: es => by
    have h1 := jsonEntryLine_length_pos (json_escape_string e.1) idx (!es.isEmpty)
    have h2 := vocabJsonLines_length_ge (idx + 1) es
    simp only [vocabJsonLines, List.length_append, List.length_cons]
    omega

theorem freqJsonLines_length_ge :
    ∀ (toks : List (String × Int)), toks.length ≤ (freqJsonLines toks).length
  | [] => by simp [freqJsonLines]
  | e :: es => by
    have h1 := jsonEntryLine_length_pos (json_escape_string e.1) e.2 (!es.isEmpty)
    have h2 := freqJsonLines_length_ge es
    simp only [freqJsonLines, List.length_append, List.length_cons]
    omega

theorem specialsJsonLines_length_ge (s m : Nat) :
    5 ≤ (specialsJsonLines s m).length := by
  have h1 := jsonEntryLine_length_pos "<s>" 0 true
  have h2 := jsonEntryLine_length_pos "<pad>" 1 true
  have h3 := jsonEntryLine_length_pos "</s>" 2 true
  have h4 := jsonEntryLine_length_pos "<unk>" 3 true
  have h5 := jsonEntryLine_length_pos "<mask>" 4 (decide (0 < s) || decide (0 < m))
  simp only [specialsJsonLines, List.length_append]
  omega

/-- Loading the two generated JSON files: the merges come back empty, the
table is the raw-insert of the specials and the indexed tokens followed by
the frequency updates. -/
theorem load_save_json (vocab : HashTable) (mc : Nat)
    (hq : ∀ e ∈ non_special_entries vocab, '"' ∉ (json_escape_string e.1).data) :
    load_vocabulary_json (save_vocab_json_content vocab mc)
        (some (save_freq_json_content vocab)) =
      ((non_special_entries vocab).foldl
          (fun h e => ht_update_if_found h (json_escape_string e.1) e.2)
          (insertIdxFold 5 (non_special_entries vocab)
            (insertSpecials (ht_create 100))),
        []) := by
  have hl : skip_to_lbrace (save_vocab_json_content vocab mc) =
      '\n' :: (specialsJsonLines vocab.size mc ++
        (vocabJsonLines 5 (non_special_entries vocab) ++ "\x7d\n".data)) := by
    unfold save_vocab_json_content
    rw [show ("\x7b\n".data : List Char) = '\x7b' :: ['\n'] from rfl]
    simp only [List.cons_append, List.nil_append, List.append_assoc]
    rw [skip_to_lbrace_brace]
  have hlf : skip_to_lbrace (save_freq_json_content vocab) =
      '\n' :: (freqJsonLines (non_special_entries vocab) ++ "\x7d\n".data) := by
    unfold save_freq_json_content
    rw [show ("\x7b\n".data : List Char) = '\x7b' :: ['\n'] from rfl]
    simp only [List.cons_append, List.nil_append, List.append_assoc]
    rw [skip_to_lbrace_brace]
  have hflen : (non_special_entries vocab).length + 5 <
      (skip_to_lbrace (save_vocab_json_content vocab mc)).length + 1 := by
    rw [hl]
    have h1 := specialsJsonLines_length_ge vocab.size mc
    have h2 := vocabJsonLines_length_ge 5 (non_special_entries vocab)
    simp only [List.length_cons, List.length_append]
    omega
  have hflen2 : (non_special_entries vocab).length <
      (skip_to_lbrace (save_freq_json_content vocab)).length + 1 := by
    rw [hlf]
    have h2 := freqJsonLines_length_ge (non_special_entries vocab)
    simp only [List.length_cons, List.length_append]
    omega
  rw [hl] at hflen
  rw [hlf] at hflen2
  show (json_parse_freq ((skip_to_lbrace (save_freq_json_content vocab)).length + 1)
      (skip_to_lbrace (save_freq_json_content vocab))
      (json_parse_pairs ((skip_to_lbrace (save_vocab_json_content vocab mc)).length + 1)
        (skip_to_lbrace (save_vocab_json_content vocab mc)) (ht_create 100) []).1,
    (json_parse_pairs ((skip_to_lbrace (save_vocab_json_content vocab mc)).length + 1)
        (skip_to_lbrace (save_vocab_json_content vocab mc)) (ht_create 100) []).2) = _
  rw [hl, hlf, json_vocab_content_parse vocab mc _ (ht_create 100) [] hq hflen,
    json_parse_freqLines (non_special_entries vocab) _ _ hq hflen2]

/-! ## Entries of the tables built by the JSON loader -/

theorem getD_set_ne {α : Type} (l : List α) (i j : Nat) (c d : α) (h : i ≠ j) :
    (l.set i c).getD j d = l.getD j d := by
  simp [List.getD_eq_getElem?_getD, List.getElem?_set_ne h]

theorem getD_replicate_nil (n i : Nat) :
    ((List.replicate n ([] : List (String × Int))).getD i []) = [] := by
  rcases lt_or_ge i n with h | h
  · simp [List.getD_eq_getElem?_getD, List.getElem?_replicate, h]
  · rw [List.getD_eq_default]
    simpa using h

/-- Every item sits in the bucket selected by its key's hash: the invariant
maintained by table creation, the raw pushes of the JSON loader, and the
in-place count updates of the frequency pass. -/
def WellBucketed (T : HashTable) : Prop :=
  ∀ i, i < T.items.length → ∀ e ∈ T.items.getD i [], hash e.1 T.size = i

theorem wellBucketed_ht_create (n : Nat) : WellBucketed (ht_create n) := by
  intro i hi e he
  exfalso
  have : (ht_create n).items.getD i [] = [] := getD_replicate_nil _ i
  rw [this] at he
  exact absurd he (List.not_mem_nil e)

theorem ht_raw_insert_size (T : HashTable) (k : String) (v : Int) :
    (ht_raw_insert T k v).size = T.size := by
  show (ht_raw_insert T k v).items.length = T.items.length
  simp only [ht_raw_insert]
  exact List.length_set ..

theorem ht_raw_insert_entries_perm (T : HashTable) (k : String) (v : Int)
    (h : 0 < T.size) :
    (ht_raw_insert T k v).entries.Perm ((k, v) :: T.entries) := by
  have hslot : hash k T.size < T.items.length := Nat.mod_lt _ h
  show (ht_raw_insert T k v).items.flatten.Perm ((k, v) :: T.items.flatten)
  simp only [ht_raw_insert]
  exact set_prepend_flatten_perm _ _ _ hslot

theorem wellBucketed_ht_raw_insert (T : HashTable) (k : String) (v : Int)
    (hsz : 0 < T.size) (hwb : WellBucketed T) :
    WellBucketed (ht_raw_insert T k v) := by
  have hslot : hash k T.size < T.items.length := Nat.mod_lt _ hsz
  intro i hi e he
  rw [ht_raw_insert_size]
  simp only [ht_raw_insert] at hi he
  rw [List.length_set] at hi
  by_cases hieq : i = hash k T.size
  · subst hieq
    rw [getD_set_self _ _ _ _ hslot] at he
    rcases List.mem_cons.mp he with he | he
    · rw [he]
    · exact hwb _ hslot e he
  · rw [getD_set_ne _ _ _ _ _ (fun hh => hieq hh.symm)] at he
    exact hwb i hi e he

/-- Repeated raw insertion pushes all the pairs into the table, preserving
the bucket count and the bucket discipline. -/
theorem raw_insert_chain :
    ∀ (ps : List (String × Int)) (T : HashTable), 0 < T.size → WellBucketed T →
      ((ps.foldl (fun h e => ht_raw_insert h e.1 e.2) T).entries).Perm (ps ++ T.entries) ∧
        (ps.foldl (fun h e => ht_raw_insert h e.1 e.2) T).size = T.size ∧
        WellBucketed (ps.foldl (fun h e => ht_raw_insert h e.1 e.2) T)
  | [], T, _, hwb => ⟨by simp, rfl, hwb⟩
  | p :: ps, T, hsz, hwb => by
    have hp := ht_raw_insert_entries_perm T p.1 p.2 hsz
    have hs := ht_raw_insert_size T p.1 p.2
    have hw := wellBucketed_ht_raw_insert T p.1 p.2 hsz hwb
    have ih := raw_insert_chain ps (ht_raw_insert T p.1 p.2)
      (by rw [hs]; exact hsz) hw
    refine ⟨?_, ?_, ih.2.2⟩
    · refine ih.1.trans ?_
      refine (List.Perm.append_left ps hp).trans ?_
      have heta : (p.1, p.2) = p := rfl
      rw [heta]
      exact List.perm_middle
    · show (ps.foldl (fun h e => ht_raw_insert h e.1 e.2) (ht_raw_insert T p.1 p.2)).size = T.size
      rw [ih.2.1, hs]

/-- The five special entries written by `save_vocabulary_json`. -/
def SPECIAL_ENTRIES : List (String × Int) :=
  [("<s>", 0), ("<pad>", 1), ("</s>", 2), ("<unk>", 3), ("<mask>", 4)]

theorem insertSpecials_entries (T : HashTable) (hsz : 0 < T.size) (hwb : WellBucketed T) :
    ((insertSpecials T).entries).Perm (SPECIAL_ENTRIES ++ T.entries) ∧
      (insertSpecials T).size = T.size ∧ WellBucketed (insertSpecials T) := by
  have hfold : insertSpecials T =
      SPECIAL_ENTRIES.foldl (fun h e => ht_raw_insert h e.1 e.2) T := rfl
  rw [hfold]
  exact raw_insert_chain SPECIAL_ENTRIES T hsz hwb

/-- The pairs pushed by the vocabulary-file token loop: escaped key with its
sequential running index. -/
def idxPairs (idx : Nat) : List (String × Int) → List (String × Int)
  | [] => []
  | e :: es => (json_escape_string e.1, (idx : Int)) :: idxPairs (idx + 1) es

theorem insertIdxFold_entries :
    ∀ (toks : List (String × Int)) (idx : Nat) (T : HashTable),
      0 < T.size → WellBucketed T →
      ((insertIdxFold idx toks T).entries).Perm (idxPairs idx toks ++ T.entries) ∧
        (insertIdxFold idx toks T).size = T.size ∧
        WellBucketed (insertIdxFold idx toks T)
  | [], idx, T, _, hwb => ⟨by simp [insertIdxFold, idxPairs], rfl, hwb⟩
  | e :: es, idx, T, hsz, hwb => by
    have hp := ht_raw_insert_entries_perm T (json_escape_string e.1) idx hsz
    have hs := ht_raw_insert_size T (json_escape_string e.1) idx
    have hw := wellBucketed_ht_raw_insert T (json_escape_string e.1) idx hsz hwb
    have ih := insertIdxFold_entries es (idx + 1) (ht_raw_insert T (json_escape_string e.1) idx)
      (by rw [hs]; exact hsz) hw
    refine ⟨?_, ?_, ih.2.2⟩
    · refine ih.1.trans ?_
      refine (List.Perm.append_left (idxPairs (idx + 1) es) hp).trans ?_
      exact List.perm_middle
    · show (insertIdxFold (idx + 1) es (ht_raw_insert T (json_escape_string e.1) idx)).size = T.size
      rw [ih.2.1, hs]

theorem bucket_search_isSome_of_mem (k : String) (v : Int) :
    ∀ (b : List (String × Int)), (k, v) ∈ b → ∃ w, bucket_search k b = some w
  | [], h => absurd h (List.not_mem_nil _)
  | e :: es, h => by
    by_cases he : e.1 = k
    · exact ⟨e.2, by simp [bucket_search, he]⟩
    · rcases List.mem_cons.mp h with h1 | h1
      · exact absurd (congrArg Prod.fst h1).symm he
      · rcases bucket_search_isSome_of_mem k v es h1 with ⟨w, hw⟩
        exact ⟨w, by simp [bucket_search, he, hw]⟩

theorem hash_search_found_of_mem (T : HashTable) (k : String) (v : Int)
    (hwb : WellBucketed T) (hmem : (k, v) ∈ T.entries) :
    ∃ w, hash_search T k = some w := by
  unfold HashTable.entries at hmem
  rw [List.mem_flatten] at hmem
  obtain ⟨b, hb, hvb⟩ := hmem
  obtain ⟨i, hi, hbi⟩ := List.mem_iff_getElem.mp hb
  have hgd : T.items.getD i [] = b := by rw [getD_eq_getElem _ _ _ hi, hbi]
  have hhash : hash k T.size = i := hwb i hi (k, v) (by rw [hgd]; exact hvb)
  obtain ⟨w, hw⟩ := bucket_search_isSome_of_mem k v b hvb
  refine ⟨w, ?_⟩
  unfold hash_search
  rw [hhash, hgd, hw]

theorem bucket_set_first_keys (k : String) (c : Int) :
    ∀ (b : List (String × Int)), (bucket_set_first k c b).map Prod.fst = b.map Prod.fst
  | [] => rfl
  | e :: es => by
    by_cases he : e.1 = k
    · simp [bucket_set_first, he]
    · simp [bucket_set_first, he, bucket_set_first_keys k c es]

theorem bucket_set_first_decomp (k : String) (c : Int) :
    ∀ (b : List (String × Int)) (w : Int), bucket_search k b = some w →
      ∃ b1 b2, b = b1 ++ (k, w) :: b2 ∧ bucket_set_first k c b = b1 ++ (k, c) :: b2
  | [], w, h => absurd h (by simp [bucket_search])
  | e :: es, w, h => by
    by_cases he : e.1 = k
    · have hw : e.2 = w := by
        simp only [bucket_search, if_pos he] at h
        injection h
      refine ⟨[], es, ?_, ?_⟩
      · rw [List.nil_append]
        have hew : e = (k, w) := by
          obtain ⟨e1, e2⟩ := e
          simp only at he hw
          rw [he, hw]
        rw [hew]
      · rw [List.nil_append]
        show bucket_set_first k c (e :: es) = (k, c) :: es
        simp [bucket_set_first, he]
    · simp only [bucket_search, if_neg he] at h
      obtain ⟨b1, b2, h1, h2⟩ := bucket_set_first_decomp k c es w h
      refine ⟨e :: b1, b2, ?_, ?_⟩
      · rw [List.cons_append, ← h1]
      · show bucket_set_first k c (e :: es) = (e :: b1) ++ (k, c) :: b2
        simp [bucket_set_first, he, h2]

theorem ht_update_if_found_items_of_found (T : HashTable) (k : String) (c w : Int)
    (hs : hash_search T k = some w) :
    (ht_update_if_found T k c).items =
      T.items.set (hash k T.size)
        (bucket_set_first k c (T.items.getD (hash k T.size) [])) := by
  unfold ht_update_if_found
  rw [hs]

theorem ht_update_if_found_none (T : HashTable) (k : String) (c : Int)
    (hs : hash_search T k = none) : ht_update_if_found T k c = T := by
  unfold ht_update_if_found
  rw [hs]

theorem ht_update_if_found_size (T : HashTable) (k : String) (c : Int) :
    (ht_update_if_found T k c).size = T.size := by
  unfold ht_update_if_found
  cases hs : hash_search T k with
  | none => rfl
  | some w =>
    show (T.items.set _ _).length = T.items.length
    exact List.length_set ..

theorem wellBucketed_ht_update (T : HashTable) (k : String) (c : Int)
    (hwb : WellBucketed T) : WellBucketed (ht_update_if_found T k c) := by
  cases hs : hash_search T k with
  | none =>
    rw [ht_update_if_found_none T k c hs]
    exact hwb
  | some w =>
    have hit := ht_update_if_found_items_of_found T k c w hs
    intro i hi e he
    rw [ht_update_if_found_size T k c]
    rw [hit, List.length_set] at hi
    rw [hit] at he
    by_cases hieq : i = hash k T.size
    · subst hieq
      rw [getD_set_self _ _ _ _ hi] at he
      have hkey : e.1 ∈ (T.items.getD (hash k T.size) []).map Prod.fst := by
        rw [← bucket_set_first_keys k c]
        exact List.mem_map_of_mem Prod.fst he
      rcases List.mem_map.mp hkey with ⟨e', he', hkeq⟩
      rw [← hkeq]
      exact hwb _ hi e' he'
    · rw [getD_set_ne _ _ _ _ _ (fun hh => hieq hh.symm)] at he
      exact hwb i hi e he

/-- Updating a found key rewrites exactly one occurrence of the key in the
item list, in place. -/
theorem ht_update_if_found_decomp (T : HashTable) (k : String) (c w : Int)
    (hsz : 0 < T.size) (hfound : hash_search T k = some w) :
    ∃ L R, T.entries = L ++ (k, w) :: R ∧
      (ht_update_if_found T k c).entries = L ++ (k, c) :: R := by
  have hslot : hash k T.size < T.items.length := Nat.mod_lt _ hsz
  have hbs : bucket_search k (T.items.getD (hash k T.size) []) = some w := hfound
  obtain ⟨b1, b2, hb, hb'⟩ :=
    bucket_set_first_decomp k c (T.items.getD (hash k T.size) []) w hbs
  have hitems := ht_update_if_found_items_of_found T k c w hfound
  refine ⟨(T.items.take (hash k T.size)).flatten ++ b1,
    b2 ++ (T.items.drop (hash k T.size + 1)).flatten, ?_, ?_⟩
  · show T.items.flatten = _
    rw [flatten_decomp T.items (hash k T.size) hslot, hb]
    simp [List.append_assoc]
  · show (ht_update_if_found T k c).items.flatten = _
    rw [hitems, flatten_set _ _ _ hslot, hb']
    simp [List.append_assoc]

theorem mem_val_eq_of_nodup_keys :
    ∀ (l : List (String × Int)), ((l.map Prod.fst).Nodup) →
      ∀ (k : String) (v w : Int), (k, v) ∈ l → (k, w) ∈ l → v = w
  | [], _, _, _, _, h1, _ => absurd h1 (List.not_mem_nil _)
  | e :: es, hnd, k, v, w, h1, h2 => by
    simp only [List.map_cons, List.nodup_cons] at hnd
    rcases List.mem_cons.mp h1 with h1 | h1 <;> rcases List.mem_cons.mp h2 with h2 | h2
    · rw [← h2] at h1
      exact congrArg Prod.snd h1
    · exfalso
      apply hnd.1
      rw [show e.1 = k from (congrArg Prod.fst h1).symm]
      exact List.mem_map_of_mem Prod.fst h2
    · exfalso
      apply hnd.1
      rw [show e.1 = k from (congrArg Prod.fst h2).symm]
      exact List.mem_map_of_mem Prod.fst h1
    · exact mem_val_eq_of_nodup_keys es hnd.2 k v w h1 h2

/-- The frequency pass: when the table's entries agree key-for-key with the
index pairs followed by untouched entries, and all keys are distinct,
folding the updates replaces the placeholder values by the true counts. -/
theorem freq_fold_perm :
    ∀ (toks pairs other : List (String × Int)) (T : HashTable),
      0 < T.size → WellBucketed T →
      pairs.map Prod.fst = toks.map Prod.fst →
      T.entries.Perm (pairs ++ other) →
      (((pairs ++ other).map Prod.fst).Nodup) →
      ((toks.foldl (fun h e => ht_update_if_found h e.1 e.2) T).entries).Perm
        (toks ++ other)
  | [], pairs, other, T, _, _, hkeys, hperm, _ => by
    have hpnil : pairs = [] := by
      have hlen := congrArg List.length hkeys
      simp only [List.length_map, List.map_nil, List.length_nil] at hlen
      exact List.length_eq_zero.mp hlen
    rw [hpnil] at hperm
    simpa using hperm
  | t :: ts, pairs, other, T, hsz, hwb, hkeys, hperm, hnd => by
    cases pairs with
    | nil => simp at hkeys
    | cons p ps =>
      simp only [List.map_cons, List.cons.injEq] at hkeys
      obtain ⟨hpk, hkeys'⟩ := hkeys
      have hndE : ((T.entries).map Prod.fst).Nodup :=
        ((hperm.map Prod.fst).nodup_iff).mpr hnd
      have hmem : (t.1, p.2) ∈ T.entries := by
        apply hperm.mem_iff.mpr
        apply List.mem_append_left
        rw [show ((t.1 : String), p.2) = p by rw [← hpk]]
        exact List.mem_cons_self p ps
      obtain ⟨w, hw⟩ := hash_search_found_of_mem T t.1 p.2 hwb hmem
      obtain ⟨L, R, hE, hE'⟩ := ht_update_if_found_decomp T t.1 t.2 w hsz hw
      have hmemw : (t.1, w) ∈ T.entries := by
        rw [hE]
        exact List.mem_append_right L (List.mem_cons_self _ _)
      have hwp : w = p.2 := mem_val_eq_of_nodup_keys T.entries hndE t.1 w p.2 hmemw hmem
      have hpw : p = (t.1, w) := by
        obtain ⟨p1, p2⟩ := p
        simp only at hpk hwp
        rw [← hpk, hwp]
      have hLR : (L ++ R).Perm (ps ++ other) := by
        have hcons : ((t.1, w) :: (L ++ R)).Perm ((t.1, w) :: (ps ++ other)) := by
          refine (List.perm_middle.symm).trans ?_
          rw [← hE]
          refine hperm.trans ?_
          rw [hpw]
          rfl
        exact hcons.cons_inv
      have hT'perm : (ht_update_if_found T t.1 t.2).entries.Perm (ps ++ (t :: other)) := by
        rw [hE']
        refine List.perm_middle.trans ?_
        rw [show ((t.1 : String), t.2) = t from rfl]
        refine (hLR.cons t).trans ?_
        exact List.perm_middle.symm
      have hnd' : (((ps ++ t :: other)).map Prod.fst).Nodup := by
        have hpm : ((ps ++ t :: other).map Prod.fst).Perm (((p :: ps) ++ other).map Prod.fst) := by
          simp only [List.map_append, List.map_cons, List.cons_append]
          rw [hpk]
          exact List.perm_middle
        exact (hpm.nodup_iff).mpr hnd
      have hsz' : 0 < (ht_update_if_found T t.1 t.2).size := by
        rw [ht_update_if_found_size]
        exact hsz
      have hwb' : WellBucketed (ht_update_if_found T t.1 t.2) :=
        wellBucketed_ht_update T t.1 t.2 hwb
      have hfin := freq_fold_perm ts ps (t :: other) (ht_update_if_found T t.1 t.2)
        hsz' hwb' hkeys' hT'perm hnd'
      show ((ts.foldl (fun h e => ht_update_if_found h e.1 e.2)
        (ht_update_if_found T t.1 t.2)).entries).Perm ((t :: ts) ++ other)
      refine hfin.trans ?_
      exact List.perm_middle

theorem idxPairs_keys :
    ∀ (toks : List (String × Int)) (idx : Nat),
      (∀ e ∈ toks, escapeFree e.1 = true) →
      (idxPairs idx toks).map Prod.fst = toks.map Prod.fst
  | [], _, _ => rfl
  | e :: es, idx, h => by
    simp only [idxPairs, List.map_cons]
    rw [json_escape_string_of_escapeFree e.1 (h e (List.mem_cons_self _ _)),
      idxPairs_keys es (idx + 1) (fun x hx => h x (List.mem_cons_of_mem _ hx))]

theorem foldl_update_escape :
    ∀ (toks : List (String × Int)) (T : HashTable),
      (∀ e ∈ toks, escapeFree e.1 = true) →
      toks.foldl (fun h e => ht_update_if_found h (json_escape_string e.1) e.2) T =
        toks.foldl (fun h e => ht_update_if_found h e.1 e.2) T
  | [], _, _ => rfl
  | e :: es, T, h => by
    simp only [List.foldl_cons]
    rw [json_escape_string_of_escapeFree e.1 (h e (List.mem_cons_self _ _))]
    exact foldl_update_escape es _ (fun x hx => h x (List.mem_cons_of_mem _ hx))

theorem special_contains_false (s : String) (h : s ∉ SPECIAL_TOKENS) :
    SPECIAL_TOKENS.contains s = false := by
  simpa using h

theorem non_special_entries_eq (vocab : HashTable)
    (h : ∀ e ∈ vocab.entries, e.1 ∉ SPECIAL_TOKENS) :
    non_special_entries vocab = vocab.entries := by
  unfold non_special_entries
  rw [List.filter_eq_self]
  intro a ha
  rw [special_contains_false a.1 (h a ha)]
  rfl

/-- Claim C2: For every vocabulary and merge history, saving with the JSON
serializer (vocabulary file plus frequency file) and then loading the
vocabulary JSON (which also reads the paired `_freq.json`) reproduces the
identical (token → count) set and the identical ordered merge list.

As stated the claim is false: the merge list is never written to the JSON
file (the merge-writing block of `save_vocabulary_json` is commented out),
so the loader always returns an empty merge list.  The corrected statement
proved here: for every table whose tokens need no JSON escaping, are not
special tokens, and have pairwise-distinct keys, the loaded merge list is
empty and the loaded table holds exactly the five special tokens with
counts 0–4 plus every original (token, count) pair. -/
theorem C2_json_round_trip (vocab : HashTable) (mc : Nat)
    (hesc : ∀ e ∈ vocab.entries, escapeFree e.1 = true)
    (hns : ∀ e ∈ vocab.entries, e.1 ∉ SPECIAL_TOKENS)
    (hnd : ((vocab.entries.map Prod.fst).Nodup)) :
    (load_vocabulary_json (save_vocab_json_content vocab mc)
        (some (save_freq_json_content vocab))).2 = [] ∧
      (((load_vocabulary_json (save_vocab_json_content vocab mc)
        (some (save_freq_json_content vocab))).1).entries).Perm
        (SPECIAL_ENTRIES ++ vocab.entries) := by
  have htoks : non_special_entries vocab = vocab.entries := non_special_entries_eq vocab hns
  have hq : ∀ e ∈ non_special_entries vocab, '"' ∉ (json_escape_string e.1).data := by
    intro e he
    rw [htoks] at he
    rw [json_escape_string_of_escapeFree e.1 (hesc e he)]
    exact escapeFree_no_quote e.1 (hesc e he)
  have hload := load_save_json vocab mc hq
  rw [hload]
  refine ⟨rfl, ?_⟩
  show ((non_special_entries vocab).foldl
      (fun h e => ht_update_if_found h (json_escape_string e.1) e.2)
      (insertIdxFold 5 (non_special_entries vocab)
        (insertSpecials (ht_create 100)))).entries.Perm _
  rw [htoks, foldl_update_escape vocab.entries _ hesc]
  have hsz0 : 0 < (ht_create 100).size := by decide
  have hwb0 : WellBucketed (ht_create 100) := wellBucketed_ht_create 100
  obtain ⟨hSp, hSs, hSw⟩ := insertSpecials_entries (ht_create 100) hsz0 hwb0
  have hsz1 : 0 < (insertSpecials (ht_create 100)).size := by rw [hSs]; exact hsz0
  obtain ⟨hIp, hIs, hIw⟩ :=
    insertIdxFold_entries vocab.entries 5 (insertSpecials (ht_create 100)) hsz1 hSw
  have hsz2 : 0 < (insertIdxFold 5 vocab.entries (insertSpecials (ht_create 100))).size := by
    rw [hIs]
    exact hsz1
  have hT1 : ((insertIdxFold 5 vocab.entries (insertSpecials (ht_create 100))).entries).Perm
      (idxPairs 5 vocab.entries ++ SPECIAL_ENTRIES) := by
    refine hIp.trans ?_
    refine List.Perm.append_left _ ?_
    refine hSp.trans ?_
    have hempty : (ht_create 100).entries = [] := by decide
    rw [hempty, List.append_nil]
  have hkeys : (idxPairs 5 vocab.entries).map Prod.fst = vocab.entries.map Prod.fst :=
    idxPairs_keys vocab.entries 5 hesc
  have hndall : (((idxPairs 5 vocab.entries ++ SPECIAL_ENTRIES)).map Prod.fst).Nodup := by
    rw [List.map_append, hkeys, List.nodup_append]
    refine ⟨hnd, by decide, ?_⟩
    intro a ha hb
    rcases List.mem_map.mp ha with ⟨e, he, hae⟩
    apply hns e he
    rw [show (SPECIAL_ENTRIES.map Prod.fst : List String) = SPECIAL_TOKENS from rfl] at hb
    rw [hae]
    exact hb
  refine (freq_fold_perm vocab.entries (idxPairs 5 vocab.entries) SPECIAL_ENTRIES
    (insertIdxFold 5 vocab.entries (insertSpecials (ht_create 100)))
    hsz2 hIw hkeys hT1 hndall).trans ?_
  exact List.perm_append_comm

set_option maxRecDepth 8192 in
/-- Claim C2, counterexample to the original statement: saving a vocabulary
together with one merge and loading the produced JSON pair does not
reproduce the merge list — `save_vocabulary_json` never writes the merges
(the writing block is commented out), so the loader returns no merges. -/
theorem C2_counterexample :
    ¬ ((load_vocabulary_json (save_vocab_json_content (ht_create 1) 1)
        (some (save_freq_json_content (ht_create 1)))).2 = ["a b"]) := by
  decide

set_option maxRecDepth 8192 in
/-- The corrected JSON round trip instantiated at a one-token table. -/
theorem C2_witness :
    (load_vocabulary_json (save_vocab_json_content ⟨[[("x", 3)]], 1⟩ 0)
        (some (save_freq_json_content ⟨[[("x", 3)]], 1⟩))).2 = [] ∧
      (((load_vocabulary_json (save_vocab_json_content ⟨[[("x", 3)]], 1⟩ 0)
        (some (save_freq_json_content ⟨[[("x", 3)]], 1⟩))).1).entries).Perm
        (SPECIAL_ENTRIES ++ (⟨[[("x", 3)]], 1⟩ : HashTable).entries) :=
  C2_json_round_trip ⟨[[("x", 3)]], 1⟩ 0 (by decide) (by decide) (by decide)

end Cvocgen
